import Mathlib

set_option maxRecDepth 8000
set_option maxHeartbeats 1000000

namespace Ocr2md

/-- Characters that Python's `str.splitlines` treats as line boundaries
(CPython's set: LF, CR, VT, FF, FS, GS, RS, NEL, LINE SEPARATOR,
PARAGRAPH SEPARATOR; CRLF is handled as one boundary in `splitAux`). -/
def lineBreakB (c : Char) : Bool :=
  c == '\n' || c == '\r' || c == '\x0b' || c == '\x0c' || c == '\x1c' ||
  c == '\x1d' || c == '\x1e' || c == '\u0085' || c == '\u2028' || c == '\u2029'

/-- Python whitespace: the character class matched by `\s` in `re` (str
patterns) and stripped by `str.strip`/`str.rstrip`, i.e. CPython's
`Py_UNICODE_ISSPACE` set. -/
def pyWs (c : Char) : Bool :=
  lineBreakB c || c == ' ' || c == '\t' || c == '\x1f' || c == '\u00a0' ||
  c == '\u1680' || c == '\u2000' || c == '\u2001' || c == '\u2002' ||
  c == '\u2003' || c == '\u2004' || c == '\u2005' || c == '\u2006' ||
  c == '\u2007' || c == '\u2008' || c == '\u2009' || c == '\u200a' ||
  c == '\u202f' || c == '\u205f' || c == '\u3000'

/-- The character class `[a-zA-Z0-9+\s]` of the capture group in the
citation regex of `fix_citations` (src/ocr2md.py line 16). -/
def catB (c : Char) : Bool :=
  c.isAlpha || c.isDigit || c == '+' || pyWs c

/-- Matcher for the regex tail `\\?\)`: an optional backslash, then a
closing parenthesis.  Returns the remaining text after the parenthesis.
Python tries the backslash branch first; both branches are mutually
exclusive on the head character, so the match is deterministic. -/
def sTail : List Char → Option (List Char)
  | ')' :: r => some r
  | '\\' :: ')' :: r => some r
  | _ => none

/-- The present-first optional closing brace `\}?`: consume a leading `}`
when there is one (skipping a present `}` cannot help, since `}` is matched
by nothing that follows). -/
def dropBrace : List Char → List Char
  | '\x7d' :: r => r
  | l => l

/-- Matcher for the regex suffix `\s*\}?\s*\\?\)` that follows the capture
group.  Greedy `\s*` and present-first `\}?` are forced here: no other
backtracking choice can reach the closing parenthesis, because `)` lies in
none of the earlier character classes. -/
def sMatch (l : List Char) : Option (List Char) :=
  sTail ((dropBrace (l.dropWhile pyWs)).dropWhile pyWs)

/-- Greedy matching of the capture group `([a-zA-Z0-9+\s]+)` followed by
`sMatch`: the group first takes the whole run `revRun.reverse` of
class-`catB` characters, then gives characters back one at a time (from the
right) until the suffix matches, exactly as Python's backtracking does.
Returns the captured text and the remainder after the full match. -/
def pickGR : List Char → List Char → Option (List Char × List Char)
  | [], _ => none
  | c :: revRun, rest =>
    match sMatch rest with
    | some r => some ((c :: revRun).reverse, r)
    | none => pickGR revRun (c :: rest)

/-- Backtracking over the start position of the capture group: the greedy
`\s*` before the group first skips the whole whitespace run `revWs.reverse`,
then gives back one whitespace character at a time (each is also in the
group class, so it joins the front of the group's run). -/
def tryR : List Char → List Char → Option (List Char × List Char)
  | [], post => pickGR (post.takeWhile catB).reverse (post.dropWhile catB)
  | w :: revWs', post =>
    match pickGR (post.takeWhile catB).reverse (post.dropWhile catB) with
    | some x => some x
    | none => tryR revWs' (w :: post)

/-- Matcher for `\s*\{?\s*([a-zA-Z0-9+\s]+)\s*\}?\s*\\?\)`, the part of the
citation regex after the caret.  When the first non-whitespace character is
an opening brace it must be consumed (skipping it dead-ends on the same
character), and group backtracking cannot cross the brace. -/
def afterCaret (l : List Char) : Option (List Char × List Char) :=
  match l.dropWhile pyWs with
  | '\x7b' :: r2 => tryR (r2.takeWhile pyWs).reverse (r2.dropWhile pyWs)
  | _ => tryR (l.takeWhile pyWs).reverse (l.dropWhile pyWs)

/-- Matcher for `\s*\^` followed by `afterCaret`: greedy whitespace skipping
is forced since `^` is not whitespace. -/
def afterParen (l : List Char) : Option (List Char × List Char) :=
  match l.dropWhile pyWs with
  | '^' :: r => afterCaret r
  | _ => none

/-- Anchored match of the whole citation regex
`\\?\(\s*\^\s*\{?\s*([a-zA-Z0-9+\s]+)\s*\}?\s*\\?\)` at the head of `l`
(src/ocr2md.py line 16).  Returns the capture and the rest of the text
after the match. -/
def tryMatchAt : List Char → Option (List Char × List Char)
  | '\\' :: '(' :: r => afterParen r
  | '(' :: r => afterParen r
  | _ => none

/-- Left-to-right scan of `re.sub`: at each position try the anchored
match; on success emit the replacement `[^` ++ capture ++ `]` and resume
after the match, otherwise copy one character.  The fuel argument only
serves termination; `fuel = l.length` always suffices. -/
def fixAuxF : Nat → List Char → List Char
  | _, [] => []
  | 0, l => l
  | fuel + 1, c :: rest =>
    match tryMatchAt (c :: rest) with
    | some (cap, r) => '[' :: '^' :: (cap ++ ']' :: fixAuxF fuel r)
    | none => c :: fixAuxF fuel rest

/-- `fix_citations` on character lists (src/ocr2md.py lines 11–16). -/
def fixCitationsL (l : List Char) : List Char := fixAuxF l.length l

/-- `fix_citations` (src/ocr2md.py lines 11–16): rewrite every occurrence
of the citation pattern to `[^` ++ capture ++ `]`. -/
def fix_citations (s : String) : String := ⟨fixCitationsL s.data⟩

/-- A character that no component of the citation regex after its opening
`\(` can consume: not whitespace, not in the group class, and none of the
literals `^ { } ) \`.  Both `(` and `[` are such characters, which is what
makes replaced text interchangeable with the original match for every
failing earlier position of the scan. -/
def Blocker (c : Char) : Prop :=
  pyWs c = false ∧ catB c = false ∧
  c ≠ '^' ∧ c ≠ '\x7b' ∧ c ≠ '\x7d' ∧ c ≠ ')' ∧ c ≠ '\\'

/-- A tail on which every sub-matcher below `tryMatchAt` is stuck at the
first character: it starts with a `Blocker`, or with `\(` (where the `\`
can only be consumed by `\\?\)`, which then fails on the `(`). -/
def BlockedL (y : List Char) : Prop :=
  (∃ c t, y = c :: t ∧ Blocker c) ∨ (∃ t, y = '\\' :: '(' :: t)

/-- Result correspondence for matcher components returning the unconsumed
rest: on `u ++ y` and `u ++ z` they either both fail or both succeed
having consumed the same prefix of `u`. -/
def SimO (y z : List Char) (o₁ o₂ : Option (List Char)) : Prop :=
  (o₁ = none ∧ o₂ = none) ∨ ∃ v, o₁ = some (v ++ y) ∧ o₂ = some (v ++ z)

/-- Result correspondence for matcher components returning a capture and
the unconsumed rest. -/
def SimP (y z : List Char) (o₁ o₂ : Option (List Char × List Char)) : Prop :=
  (o₁ = none ∧ o₂ = none) ∨
  ∃ cap v, o₁ = some (cap, v ++ y) ∧ o₂ = some (cap, v ++ z)

/-- Two characters occur adjacently, in this order, somewhere in the
list. -/
def Adj2 (a b : Char) (l : List Char) : Prop :=
  ∃ u v, l = u ++ a :: b :: v

/-- Three characters occur adjacently, in this order, somewhere in the
list. -/
def Adj3 (a b c : Char) (l : List Char) : Prop :=
  ∃ u v, l = u ++ a :: b :: c :: v

/-- Worker for Python `str.splitlines`: `acc` holds the reversed characters
of the current line; a CRLF pair counts as a single boundary, and a
terminator at the very end does not open a final empty line. -/
def splitAux : List Char → List Char → List (List Char)
  | [], acc => if acc.isEmpty then [] else [acc.reverse]
  | '\r' :: '\n' :: r, acc => acc.reverse :: splitAux r []
  | c :: r, acc =>
    if lineBreakB c then acc.reverse :: splitAux r [] else splitAux r (c :: acc)

/-- Python `str.splitlines` (used by `normalize_text`, src/ocr2md.py
line 24). -/
def splitLinesL (l : List Char) : List (List Char) := splitAux l []

/-- Python `str.rstrip()` with no argument: drop trailing whitespace. -/
def rstripL (l : List Char) : List Char := (l.reverse.dropWhile pyWs).reverse

/-- Does the line start with the OCR control-marker sentinel `<|`
(Python `line.startswith("<|")`, src/ocr2md.py line 29)? -/
def startsMarker : List Char → Bool
  | '<' :: '|' :: _ => true
  | _ => false

/-- The per-line pass of `normalize_text` (src/ocr2md.py lines 23–31):
rstrip each line, keep blank lines as empty separators, drop lines that
start with `<|`, keep the rest. -/
def processLines : List (List Char) → List (List Char)
  | [] => []
  | l :: ls =>
    let l' := rstripL l
    if l'.isEmpty then [] :: processLines ls
    else if startsMarker l' then processLines ls
    else l' :: processLines ls

/-- Python `"\n".join` (src/ocr2md.py line 33). -/
def joinNL : List (List Char) → List Char
  | [] => []
  | [l] => l
  | l :: ls => l ++ '\n' :: joinNL ls

/-- Python `str.strip()` with no argument: drop leading and trailing
whitespace (src/ocr2md.py line 33). -/
def stripL (l : List Char) : List Char := rstripL (l.dropWhile pyWs)

/-- `normalize_text` on character lists (src/ocr2md.py lines 19–34). -/
def normalizeL (l : List Char) : List Char :=
  fixCitationsL (stripL (joinNL (processLines (splitLinesL l))))

/-- `normalize_text` (src/ocr2md.py lines 19–34): per-line cleanup, join,
strip, then `fix_citations`. -/
def normalize_text (s : String) : String := ⟨normalizeL s.data⟩

/-- Result of the external OCR subprocess for one page, indexed by page
number: either the process completed (with exit code, stdout, stderr) or
the 15-second bound of src/ocr2md.py line 49 elapsed. -/
inductive SubprocResult where
  | completed (returncode : Int) (stdout stderr : String)
  | timedOut
deriving DecidableEq

/-- Outcome of `run_ocr` (src/ocr2md.py lines 37–57): the raised
`TimeoutError` and `RuntimeError` become explicit constructors; on a zero
exit code the backend's stdout is returned. -/
inductive OcrOutcome where
  | ok (text : String)
  | timeoutErr
  | runtimeErr (stderr : String)
deriving DecidableEq

/-- `run_ocr` (src/ocr2md.py lines 37–57) over an abstract OCR backend
keyed by page index. -/
def run_ocr (backend : Nat → SubprocResult) (page : Nat) : OcrOutcome :=
  match backend page with
  | .timedOut => .timeoutErr
  | .completed rc out err => if rc ≠ 0 then .runtimeErr err else .ok out

/-- The placeholder written on an OCR timeout (src/ocr2md.py line 148). -/
def timeoutPlaceholder : String := "[Página omitida por timeout]"

/-- The placeholder written on any other OCR error (src/ocr2md.py
line 152). -/
def errorPlaceholder : String := "[Error de OCR en esta página]"

/-- The text written for a freshly processed page by the loop body
(src/ocr2md.py lines 141–152): normalized OCR text on success, the timeout
placeholder on `TimeoutError`, the error placeholder on any other
exception. -/
def pageContent (backend : Nat → SubprocResult) (page : Nat) : String :=
  match run_ocr backend page with
  | .ok raw => normalize_text raw
  | .timeoutErr => timeoutPlaceholder
  | .runtimeErr _ => errorPlaceholder

/-- The text directory as a map from page index to the content of
`page-NNN.txt` (the three-digit names are in bijection with the indices). -/
def FS : Type := Nat → Option String

/-- Writing `page-NNN.txt`. -/
def writeFile (fs : FS) (i : Nat) (content : String) : FS :=
  fun j => if j = i then some content else fs j

/-- One iteration of the per-page loop (src/ocr2md.py lines 132–152): if
the page's text file exists, skip; otherwise invoke OCR and write the
resulting content.  The boolean records whether `run_ocr` was invoked. -/
def processPage (backend : Nat → SubprocResult) (fs : FS) (i : Nat) : FS × Bool :=
  match fs i with
  | some _ => (fs, false)
  | none => (writeFile fs i (pageContent backend i), true)

/-- The whole per-page loop (src/ocr2md.py lines 132–152) over the listed
page indices, also accumulating the pages for which OCR was invoked. -/
def runLoop (backend : Nat → SubprocResult) : List Nat → FS → FS × List Nat
  | [], fs => (fs, [])
  | i :: is, fs =>
    let s := processPage backend fs i
    let rest := runLoop backend is s.1
    (rest.1, if s.2 then i :: rest.2 else rest.2)

/-- The citation post-pass of `main` (src/ocr2md.py lines 156–163): every
existing page file is re-read and `fix_citations` is applied; the file is
rewritten when the content changed, so afterwards each file holds the
`fix_citations` of its previous content. -/
def postPass (fs : FS) : FS := fun i => (fs i).map fix_citations

/-- The page-processing part of `main` (src/ocr2md.py lines 132–168) for a
document with pages 1..n: the per-page loop followed by the citation
post-pass.  Returns the final text directory and the pages OCR ran on. -/
def mainPages (backend : Nat → SubprocResult) (n : Nat) (fs : FS) : FS × List Nat :=
  let r := runLoop backend (List.range' 1 n) fs
  (postPass r.1, r.2)

/-- The empty text directory of a fresh run. -/
def emptyFS : FS := fun _ => none

end Ocr2md

namespace TGTranslate

/-- `build_prompt` (src/TG_translate.py lines 13–19) with the constant
languages of lines 6–9 interpolated exactly as the f-string does. -/
def build_prompt (text : String) : String :=
  "You are a professional English (en) to Spanish (es) translator. Your goal is to accurately convey the meaning and nuances of the original English text while adhering to Spanish grammar, vocabulary, and cultural sensitivities.\nProduce only the Spanish translation, without any additional explanations or commentary. Please translate the following English text into Spanish:\n\n\n" ++ text ++ "\n"

/-- Result of the external translation subprocess (no timeout is passed,
src/TG_translate.py lines 24–29). -/
structure Proc where
  returncode : Int
  stdout : String
  stderr : String

/-- Python `str.strip()` on strings. -/
def pyStripS (s : String) : String := ⟨Ocr2md.stripL s.data⟩

/-- `run_translation` (src/TG_translate.py lines 21–34) over an abstract
backend from prompt to subprocess result: on a nonzero exit the
`RuntimeError` carrying stderr is the error case, otherwise the stripped
stdout is returned. -/
def run_translation (backend : String → Proc) (md_text : String) : Except String String :=
  let proc := backend (build_prompt md_text)
  if proc.returncode ≠ 0 then .error proc.stderr else .ok (pyStripS proc.stdout)

/-- The facts about the resolved input path that `main` consults
(src/TG_translate.py lines 41–49): existence, the `Path.suffix`, and the
file's text. -/
structure PathInfo where
  pathExists : Bool
  suffix : String
  content : String

/-- Python `str.lower()` restricted to ASCII letters, which is exact for
the suffix comparison `md_path.suffix.lower() != ".md"` on ASCII
suffixes. -/
def asciiLowerS (s : String) : String := ⟨s.data.map Char.toLower⟩

/-- Observable outcome of one run of the translation utility: the process
exit code (0 for the success path, 1 for `sys.exit(1)` and for the
interpreter's exit on an uncaught `RuntimeError`), the content written to
the sibling output file if any, and whether the external backend was
invoked. -/
structure Outcome where
  exitCode : Nat
  written : Option String
  backendCalled : Bool
deriving DecidableEq

/-- `main` of the translation utility (src/TG_translate.py lines 36–56):
argument-count check, then existence/extension validation, then
translation and write of the sibling file. -/
def tgMain (argcOk : Bool) (p : PathInfo) (backend : String → Proc) : Outcome :=
  if argcOk = false then ⟨1, none, false⟩
  else if p.pathExists = false ∨ asciiLowerS p.suffix ≠ ".md" then ⟨1, none, false⟩
  else
    match run_translation backend p.content with
    | .error _ => ⟨1, none, true⟩
    | .ok t => ⟨0, some t, true⟩

end TGTranslate

namespace Ocr2md

theorem rstripL_nil : rstripL [] = [] := rfl

theorem rstripL_cons (c : Char) (l : List Char) :
    rstripL (c :: l) =
      if rstripL l = [] ∧ pyWs c = true then [] else c :: rstripL l := by
  unfold rstripL
  rw [List.reverse_cons, List.dropWhile_append]
  by_cases h : (List.dropWhile pyWs l.reverse).isEmpty
  · have h' : List.dropWhile pyWs l.reverse = [] := by
      simpa [List.isEmpty_iff] using h
    by_cases hc : pyWs c
    · simp [h, h', List.dropWhile_cons, hc]
    · simp [h, h', List.dropWhile_cons, hc]
  · have h' : List.dropWhile pyWs l.reverse ≠ [] := by
      simpa [List.isEmpty_iff] using h
    simp [h, h']

theorem rstripL_eq_nil (l : List Char) (h : ∀ c ∈ l, pyWs c = true) :
    rstripL l = [] := by
  unfold rstripL
  have h' : List.dropWhile pyWs l.reverse = [] :=
    List.dropWhile_eq_nil_iff.mpr fun c hc => h c (List.mem_reverse.mp hc)
  simp [h']

theorem rstripL_cons_of_not_ws (c : Char) (l : List Char) (h : pyWs c = false) :
    rstripL (c :: l) = c :: rstripL l := by
  rw [rstripL_cons]
  simp [h]

theorem runLoop_preserves (backend : Nat → SubprocResult) (is : List Nat) (fs : FS)
    (i : Nat) (c : String) (h : fs i = some c) :
    (runLoop backend is fs).1 i = some c := by
  induction is generalizing fs with
  | nil => simpa [runLoop]
  | cons j js ih =>
    cases hj : fs j with
    | some d => simpa [runLoop, processPage, hj] using ih fs h
    | none =>
      have h' : writeFile fs j (pageContent backend j) i = some c := by
        unfold writeFile
        by_cases hij : i = j
        · subst hij; rw [h] at hj; exact Option.noConfusion hj
        · simp [hij, h]
      simpa [runLoop, processPage, hj] using ih _ h'

theorem runLoop_not_mem (backend : Nat → SubprocResult) (is : List Nat) (fs : FS)
    (i : Nat) (h : i ∉ is) :
    (runLoop backend is fs).1 i = fs i := by
  induction is generalizing fs with
  | nil => simp [runLoop]
  | cons j js ih =>
    have hij : i ≠ j := fun e => h (e ▸ List.mem_cons_self j js)
    have hjs : i ∉ js := fun e => h (List.mem_cons_of_mem j e)
    cases hj : fs j with
    | some d => simpa [runLoop, processPage, hj] using ih fs hjs
    | none =>
      have hw : writeFile fs j (pageContent backend j) i = fs i := by
        simp [writeFile, hij]
      have hr := ih (writeFile fs j (pageContent backend j)) hjs
      simp [runLoop, processPage, hj, hr, hw]

theorem runLoop_writes (backend : Nat → SubprocResult) (is : List Nat) (fs : FS)
    (i : Nat) (hmem : i ∈ is) (h : fs i = none) :
    (runLoop backend is fs).1 i = some (pageContent backend i) := by
  induction is generalizing fs with
  | nil => cases hmem
  | cons j js ih =>
    by_cases hij : i = j
    · subst hij
      have h' : writeFile fs i (pageContent backend i) i = some (pageContent backend i) := by
        simp [writeFile]
      simpa [runLoop, processPage, h] using runLoop_preserves backend js _ i _ h'
    · have hjs : i ∈ js := by
        cases List.mem_cons.mp hmem with
        | inl e => exact absurd e hij
        | inr e => exact e
      cases hj : fs j with
      | some d => simpa [runLoop, processPage, hj] using ih fs hjs h
      | none =>
        have h' : writeFile fs j (pageContent backend j) i = none := by
          simp [writeFile, hij, h]
        simpa [runLoop, processPage, hj] using ih _ hjs h'

theorem runLoop_calls (backend : Nat → SubprocResult) (is : List Nat) (fs : FS)
    (hnd : is.Nodup) :
    (runLoop backend is fs).2 = is.filter (fun i => (fs i).isNone) := by
  induction is generalizing fs with
  | nil => simp [runLoop]
  | cons j js ih =>
    have hj' : j ∉ js := (List.nodup_cons.mp hnd).1
    have hnd' : js.Nodup := (List.nodup_cons.mp hnd).2
    cases hj : fs j with
    | some d =>
      simp [runLoop, processPage, hj, List.filter_cons, ih fs hnd']
    | none =>
      have hcong :
          js.filter (fun i => ((writeFile fs j (pageContent backend j)) i).isNone) =
          js.filter (fun i => (fs i).isNone) := by
        refine List.filter_congr fun x hx => ?_
        have hxj : x ≠ j := fun e => hj' (e ▸ hx)
        simp [writeFile, hxj]
      simp [runLoop, processPage, hj, List.filter_cons, ih _ hnd', hcong]

theorem fix_timeoutPlaceholder : fix_citations timeoutPlaceholder = timeoutPlaceholder := rfl

theorem fix_errorPlaceholder : fix_citations errorPlaceholder = errorPlaceholder := rfl

end Ocr2md

namespace Ocr2md

/-- C2, counterexample: on the input `(^ { 26 } )` the greedy capture group
of `fix_citations` also captures the space before the closing brace, so the
output is `[^26 ]`, not the `[^26]` the claim states. -/
theorem c2_counterexample :
    fix_citations "(^ \x7b 26 \x7d )" = "[^26 ]" ∧ ("[^26 ]" : String) ≠ "[^26]" :=
  ⟨rfl, by decide⟩

/-- C2, amended: `fix_citations` rewrites `(^26)`, `(^{26})` and `\(^26\)`
to `[^26]`, while `(^ { 26 } )` is rewritten to `[^26 ]` (the whitespace
captured inside the group is preserved). -/
theorem c2_amended :
    fix_citations "(^26)" = "[^26]" ∧
    fix_citations "(^\x7b26\x7d)" = "[^26]" ∧
    fix_citations "(^ \x7b 26 \x7d )" = "[^26 ]" ∧
    fix_citations "\\(^26\\)" = "[^26]" :=
  ⟨rfl, rfl, rfl, rfl⟩

/-- C3, counterexample: `normalize_text` drops the entire line
`<|ref|>Hello` (it begins with the control marker), so the normalized page
text is `[^1]`, not `Hello\n\n[^1]` as the claim states. -/
theorem c3_counterexample :
    normalize_text "<|ref|>Hello\n\n(^1)" = "[^1]" ∧
    ("[^1]" : String) ≠ "Hello\n\n[^1]" :=
  ⟨rfl, by decide⟩

/-- C3, amended: when the OCR backend returns `<|ref|>Hello\n\n(^1)` for
every page of a 3-page document, the pipeline produces three page files
each containing exactly `[^1]` (the whole marker line, including `Hello`,
is dropped by normalization). -/
theorem c3_amended :
    (mainPages (fun _ => SubprocResult.completed 0 "<|ref|>Hello\n\n(^1)" "") 3 emptyFS).1 1 =
      some "[^1]" ∧
    (mainPages (fun _ => SubprocResult.completed 0 "<|ref|>Hello\n\n(^1)" "") 3 emptyFS).1 2 =
      some "[^1]" ∧
    (mainPages (fun _ => SubprocResult.completed 0 "<|ref|>Hello\n\n(^1)" "") 3 emptyFS).1 3 =
      some "[^1]" ∧
    normalize_text "<|ref|>Hello\n\n(^1)" = "[^1]" :=
  ⟨rfl, rfl, rfl, rfl⟩

/-- C4: if OCR for page `k` times out, the completed run still gives every
page of 1..n a text file, page `k`'s file holds the timeout placeholder,
any page whose backend exits nonzero holds the distinct error placeholder,
and the two placeholders differ.  The loop body handles both the
`TimeoutError` and the generic `Exception` case, so in the model every
constructor of the backend result is covered and the loop is total. -/
theorem c4_timeout_isolation (backend : Nat → SubprocResult) (n k : Nat)
    (hk : k ∈ List.range' 1 n) (ht : backend k = SubprocResult.timedOut) :
    (mainPages backend n emptyFS).1 k = some timeoutPlaceholder ∧
    (∀ j ∈ List.range' 1 n, ((mainPages backend n emptyFS).1 j).isSome) ∧
    (∀ j ∈ List.range' 1 n, ∀ rc out err, backend j = SubprocResult.completed rc out err →
      rc ≠ 0 → (mainPages backend n emptyFS).1 j = some errorPlaceholder) ∧
    timeoutPlaceholder ≠ errorPlaceholder := by
  have hw : ∀ j ∈ List.range' 1 n,
      (runLoop backend (List.range' 1 n) emptyFS).1 j = some (pageContent backend j) :=
    fun j hj => runLoop_writes backend _ emptyFS j hj rfl
  refine ⟨?_, ?_, ?_, by decide⟩
  · have h1 := hw k hk
    simp [mainPages, postPass, h1, pageContent, run_ocr, ht, fix_timeoutPlaceholder]
  · intro j hj
    simp [mainPages, postPass, hw j hj]
  · intro j hj rc out err hc hrc
    have h1 := hw j hj
    simp [mainPages, postPass, h1, pageContent, run_ocr, hc, hrc, fix_errorPlaceholder]

/-- C4 witness: a concrete 3-page run where page 2 times out and page 3's
backend exits nonzero. -/
theorem c4_witness :
    (mainPages (fun i => if i = 2 then SubprocResult.timedOut
        else if i = 3 then SubprocResult.completed 1 "" "boom"
        else SubprocResult.completed 0 "hi" "") 3 emptyFS).1 2 = some timeoutPlaceholder ∧
    ((mainPages (fun i => if i = 2 then SubprocResult.timedOut
        else if i = 3 then SubprocResult.completed 1 "" "boom"
        else SubprocResult.completed 0 "hi" "") 3 emptyFS).1 1).isSome ∧
    (mainPages (fun i => if i = 2 then SubprocResult.timedOut
        else if i = 3 then SubprocResult.completed 1 "" "boom"
        else SubprocResult.completed 0 "hi" "") 3 emptyFS).1 3 = some errorPlaceholder ∧
    timeoutPlaceholder ≠ errorPlaceholder := by
  have h := c4_timeout_isolation
    (fun i => if i = 2 then SubprocResult.timedOut
      else if i = 3 then SubprocResult.completed 1 "" "boom"
      else SubprocResult.completed 0 "hi" "") 3 2 (by decide) (by decide)
  exact ⟨h.1, h.2.1 1 (by decide), h.2.2.1 3 (by decide) 1 "" "boom" (by decide) (by decide), h.2.2.2⟩

/-- C5: over any duplicate-free page list, the loop's OCR invocations are
exactly the pages whose text file is absent at the start: a page with an
existing file is never invoked, and a page with a missing file is invoked
exactly once. -/
theorem c5_skip_and_invoke (backend : Nat → SubprocResult) (fs : FS) (is : List Nat)
    (hnd : is.Nodup) :
    (runLoop backend is fs).2 = is.filter (fun i => (fs i).isNone) ∧
    (∀ i ∈ is, (fs i).isSome → i ∉ (runLoop backend is fs).2) ∧
    (∀ i ∈ is, fs i = none → ((runLoop backend is fs).2).count i = 1) := by
  refine ⟨runLoop_calls backend is fs hnd, ?_, ?_⟩
  · intro i hi hsome hmem
    rw [runLoop_calls backend is fs hnd] at hmem
    have h2 := (List.mem_filter.mp hmem).2
    simp only [Option.isNone_iff_eq_none, decide_eq_true_eq] at h2
    rw [h2] at hsome
    cases hsome
  · intro i hi hnone
    rw [runLoop_calls backend is fs hnd]
    exact List.count_eq_one_of_mem (hnd.filter _)
      (List.mem_filter.mpr ⟨hi, by simp [hnone]⟩)

/-- C5 witness: with `page-001.txt` present and `page-002.txt` absent, OCR
is not invoked for page 1 and is invoked exactly once for page 2. -/
theorem c5_witness :
    1 ∉ (runLoop (fun _ => SubprocResult.timedOut) [1, 2]
          (fun i => if i = 1 then some "done" else none)).2 ∧
    ((runLoop (fun _ => SubprocResult.timedOut) [1, 2]
          (fun i => if i = 1 then some "done" else none)).2).count 2 = 1 := by
  have h := c5_skip_and_invoke (fun _ => SubprocResult.timedOut)
    (fun i => if i = 1 then some "done" else none) [1, 2] (by decide)
  exact ⟨h.2.1 1 (by decide) (by decide), h.2.2 2 (by decide) (by decide)⟩

/-- C6, counterexample: a page file that exists before the run with content
`(^1)` is overwritten by the citation post-pass (src/ocr2md.py
lines 156–163): after the run it contains `[^1]`. -/
theorem c6_counterexample :
    ((fun i => if i = 1 then some "(^1)" else none : FS) 1 = some "(^1)") ∧
    (mainPages (fun _ => SubprocResult.timedOut) 1
        (fun i => if i = 1 then some "(^1)" else none)).1 1 = some "[^1]" ∧
    ("[^1]" : String) ≠ "(^1)" :=
  ⟨rfl, rfl, by decide⟩

/-- C6, amended: the per-page OCR loop itself never overwrites an existing
page file; the full run rewrites an existing file exactly to the
`fix_citations` of its previous content (so the file is unchanged if and
only if its content is a `fix_citations` fixed point). -/
theorem c6_amended (backend : Nat → SubprocResult) (is : List Nat) (n : Nat) (fs : FS)
    (i : Nat) (c : String) (h : fs i = some c) :
    (runLoop backend is fs).1 i = some c ∧
    (mainPages backend n fs).1 i = some (fix_citations c) := by
  refine ⟨runLoop_preserves backend is fs i c h, ?_⟩
  have h1 := runLoop_preserves backend (List.range' 1 n) fs i c h
  simp [mainPages, postPass, h1]

/-- C6 witness: the amended statement at a concrete pre-existing file. -/
theorem c6_witness :
    (runLoop (fun _ => SubprocResult.timedOut) [1]
        (fun i => if i = 1 then some "x (^2) y" else none)).1 1 = some "x (^2) y" ∧
    (mainPages (fun _ => SubprocResult.timedOut) 1
        (fun i => if i = 1 then some "x (^2) y" else none)).1 1 =
      some (fix_citations "x (^2) y") :=
  c6_amended (fun _ => SubprocResult.timedOut) [1] 1
    (fun i => if i = 1 then some "x (^2) y" else none) 1 "x (^2) y" rfl

/-- C7: a line that begins with the two-character control marker `<|` is
dropped entirely by the line pass of `normalize_text` (whatever follows the
marker), a non-marker line that is already free of trailing whitespace is
kept unchanged, and on the claim's two example lines `normalize_text`
returns `""` and the line itself. -/
theorem c7_marker_lines :
    (∀ cs ls, processLines (('<' :: '|' :: cs) :: ls) = processLines ls) ∧
    (∀ l ls, startsMarker (rstripL l) = false → rstripL l = l → l ≠ [] →
      processLines (l :: ls) = l :: processLines ls) ∧
    normalize_text "<|foo|>bar" = "" ∧
    normalize_text "text<|mid|>" = "text<|mid|>" := by
  refine ⟨?_, ?_, rfl, rfl⟩
  · intro cs ls
    have h1 : rstripL ('<' :: '|' :: cs) = '<' :: '|' :: rstripL cs := by
      rw [rstripL_cons_of_not_ws _ _ (by decide), rstripL_cons_of_not_ws _ _ (by decide)]
    simp [processLines, h1, startsMarker]
  · intro l ls hm hr hne
    have hne' : (rstripL l).isEmpty = false := by
      rw [hr]
      cases l with
      | nil => exact absurd rfl hne
      | cons a t => rfl
    rw [hr] at hm
    simp [processLines, hne', hm, hr, hne]

/-- C7 witness: the general parts of the statement at the concrete lines
`<|a` and `t`. -/
theorem c7_witness :
    processLines [['<', '|', 'a']] = processLines [] ∧
    processLines [['t']] = [['t']] := by
  refine ⟨c7_marker_lines.1 ['a'] [], ?_⟩
  have h := c7_marker_lines.2.1 ['t'] [] rfl rfl (by simp)
  simpa using h

/-- C10, counterexample: in the input `" \nab"` the first line is
whitespace-only, yet the normalized output `"ab"` contains no empty
separator line at all — the final `strip()` removed it, so such a line is
not always preserved in the output. -/
theorem c10_counterexample :
    normalize_text " \nab" = "ab" ∧
    splitLinesL (normalize_text " \nab").data = [['a', 'b']] ∧
    [] ∉ splitLinesL (normalize_text " \nab").data :=
  ⟨rfl, rfl, by decide⟩

/-- C10, amended: the line pass of `normalize_text` turns every
whitespace-only line into an empty line and keeps it (only non-blank lines
starting with `<|` are dropped); an interior blank line survives into the
output as a separator, but blank lines at the edges are removed by the
final whole-text strip. -/
theorem c10_amended :
    (∀ l ls, (∀ c ∈ l, pyWs c = true) → processLines (l :: ls) = [] :: processLines ls) ∧
    normalize_text "a\n \nb" = "a\n\nb" ∧
    normalize_text " \nab" = "ab" := by
  refine ⟨?_, rfl, rfl⟩
  intro l ls h
  have h1 : rstripL l = [] := rstripL_eq_nil l h
  simp [processLines, h1]

/-- C10 witness: the universal part of the amended statement at the
concrete whitespace-only line `" "`. -/
theorem c10_witness : processLines [[' ']] = [[]] := by
  have h := c10_amended.1 [' '] [] (by decide)
  simpa using h

end Ocr2md

namespace Ocr2md

theorem head?_dropWhile_not_ws (l : List Char) (c : Char)
    (h : (l.dropWhile pyWs).head? = some c) : pyWs c = false := by
  induction l with
  | nil => cases h
  | cons a t ih =>
    rw [List.dropWhile_cons] at h
    by_cases ha : pyWs a
    · rw [if_pos ha] at h
      exact ih h
    · rw [if_neg ha] at h
      have : a = c := by simpa using h
      rw [← this]
      exact Bool.eq_false_iff.mpr ha

theorem stripL_head_not_ws (l : List Char) (c : Char)
    (h : (stripL l).head? = some c) : pyWs c = false := by
  unfold stripL at h
  cases hd : l.dropWhile pyWs with
  | nil => rw [hd] at h; cases h
  | cons a t =>
    rw [hd, rstripL_cons] at h
    by_cases hc : rstripL t = [] ∧ pyWs a = true
    · rw [if_pos hc] at h; cases h
    · rw [if_neg hc] at h
      have hac : a = c := by simpa using h
      have ha : pyWs a = false :=
        head?_dropWhile_not_ws l a (by rw [hd]; rfl)
      rw [← hac]
      exact ha

theorem rstripL_getLast?_not_ws (l : List Char) (c : Char)
    (h : (rstripL l).getLast? = some c) : pyWs c = false := by
  unfold rstripL at h
  rw [List.getLast?_reverse] at h
  exact head?_dropWhile_not_ws l.reverse c h

theorem stripL_getLast?_not_ws (l : List Char) (c : Char)
    (h : (stripL l).getLast? = some c) : pyWs c = false :=
  rstripL_getLast?_not_ws _ c h

end Ocr2md

namespace TGTranslate

/-- C8: when the resolved input path's suffix does not lower to `.md`, the
translation utility exits with status 1, writes no output file, and never
invokes the external backend (src/TG_translate.py lines 43–45). -/
theorem c8_invalid_extension (p : PathInfo) (backend : String → Proc)
    (h : asciiLowerS p.suffix ≠ ".md") :
    tgMain true p backend = ⟨1, none, false⟩ ∧
    (tgMain true p backend).exitCode ≠ 0 ∧
    (tgMain true p backend).written = none ∧
    (tgMain true p backend).backendCalled = false := by
  have he : tgMain true p backend = ⟨1, none, false⟩ := by
    unfold tgMain
    rw [if_neg (by simp), if_pos (Or.inr h)]
  rw [he]
  exact ⟨rfl, by decide, rfl, rfl⟩

/-- C8 witness: a `.txt` path is rejected without invoking the backend. -/
theorem c8_witness :
    tgMain true ⟨true, ".txt", "x"⟩ (fun _ => ⟨0, "ok", ""⟩) = ⟨1, none, false⟩ :=
  (c8_invalid_extension ⟨true, ".txt", "x"⟩ (fun _ => ⟨0, "ok", ""⟩) (by decide)).1

/-- C9: on the success path the utility writes exactly the backend's stdout
with leading and trailing whitespace stripped (src/TG_translate.py line 34),
and a stripped string never begins or ends with a whitespace character. -/
theorem c9_stripped_output (p : PathInfo) (backend : String → Proc)
    (hex : p.pathExists = true) (hsuf : asciiLowerS p.suffix = ".md")
    (hrc : (backend (build_prompt p.content)).returncode = 0) :
    tgMain true p backend =
      ⟨0, some (pyStripS (backend (build_prompt p.content)).stdout), true⟩ ∧
    (∀ s c, ((pyStripS s).data.head? = some c → Ocr2md.pyWs c = false) ∧
            ((pyStripS s).data.getLast? = some c → Ocr2md.pyWs c = false)) := by
  constructor
  · unfold tgMain run_translation
    rw [if_neg (by simp)]
    rw [if_neg (by simp [hex, hsuf])]
    simp [hrc]
  · intro s c
    exact ⟨fun h => Ocr2md.stripL_head_not_ws s.data c h,
           fun h => Ocr2md.stripL_getLast?_not_ws s.data c h⟩

/-- C9 witness: a backend stdout `"  hola \n"` is written as `"hola"`, and
the written text's first character is not whitespace. -/
theorem c9_witness :
    tgMain true ⟨true, ".md", "doc"⟩ (fun _ => ⟨0, "  hola \n", ""⟩) = ⟨0, some "hola", true⟩ ∧
    Ocr2md.pyWs 'h' = false := by
  have h := c9_stripped_output ⟨true, ".md", "doc"⟩ (fun _ => ⟨0, "  hola \n", ""⟩) rfl rfl rfl
  exact ⟨h.1.trans (by rfl), (h.2 "  hola \n" 'h').1 rfl⟩

end TGTranslate

namespace Ocr2md

theorem dropBrace_decomp (l : List Char) : ∃ u, l = u ++ dropBrace l := by
  unfold dropBrace
  split
  · exact ⟨['\x7d'], rfl⟩
  · exact ⟨[], rfl⟩

theorem sTail_decomp (l r : List Char) (h : sTail l = some r) :
    ∃ u, u ≠ [] ∧ l = u ++ r := by
  unfold sTail at h
  split at h
  · cases h
    exact ⟨[')'], by simp, rfl⟩
  · cases h
    exact ⟨['\\', ')'], by simp, rfl⟩
  · cases h

theorem sMatch_decomp (l r : List Char) (h : sMatch l = some r) :
    ∃ u, u ≠ [] ∧ l = u ++ r := by
  unfold sMatch at h
  obtain ⟨u1, hu1, he1⟩ := sTail_decomp _ _ h
  obtain ⟨u0, he0⟩ := dropBrace_decomp (l.dropWhile pyWs)
  refine ⟨l.takeWhile pyWs ++ u0 ++ ((dropBrace (l.dropWhile pyWs)).takeWhile pyWs ++ u1), ?_, ?_⟩
  · intro hcon
    rcases List.append_eq_nil.mp hcon with ⟨h2, h3⟩
    rcases List.append_eq_nil.mp h3 with ⟨h4, h5⟩
    exact hu1 h5
  · calc l = l.takeWhile pyWs ++ l.dropWhile pyWs :=
        (List.takeWhile_append_dropWhile pyWs l).symm
      _ = l.takeWhile pyWs ++ (u0 ++ dropBrace (l.dropWhile pyWs)) :=
        congrArg (fun x => l.takeWhile pyWs ++ x) he0
      _ = l.takeWhile pyWs ++ (u0 ++ ((dropBrace (l.dropWhile pyWs)).takeWhile pyWs ++
            (dropBrace (l.dropWhile pyWs)).dropWhile pyWs)) :=
        congrArg (fun x => l.takeWhile pyWs ++ (u0 ++ x))
          (List.takeWhile_append_dropWhile pyWs _).symm
      _ = l.takeWhile pyWs ++ (u0 ++ ((dropBrace (l.dropWhile pyWs)).takeWhile pyWs ++ (u1 ++ r))) :=
        congrArg (fun x => l.takeWhile pyWs ++ (u0 ++ ((dropBrace (l.dropWhile pyWs)).takeWhile pyWs ++ x))) he1
      _ = l.takeWhile pyWs ++ u0 ++ ((dropBrace (l.dropWhile pyWs)).takeWhile pyWs ++ u1) ++ r := by
        simp [List.append_assoc]

theorem pickGR_decomp : ∀ (revRun rest cap r : List Char),
    pickGR revRun rest = some (cap, r) →
    cap ≠ [] ∧ (∀ x ∈ cap, x ∈ revRun) ∧
    ∃ mid, mid ≠ [] ∧ cap ++ (mid ++ r) = revRun.reverse ++ rest := by
  intro revRun
  induction revRun with
  | nil => intro rest cap r h; cases h
  | cons c rr ih =>
    intro rest cap r h
    unfold pickGR at h
    cases hs : sMatch rest with
    | some r' =>
      rw [hs] at h
      cases h
      obtain ⟨u, hu, he⟩ := sMatch_decomp _ _ hs
      refine ⟨by simp, fun x hx => by simpa using List.mem_reverse.mp hx, u, hu, ?_⟩
      rw [he]
    | none =>
      rw [hs] at h
      obtain ⟨hc, hmem, mid, hmid, he⟩ := ih (c :: rest) cap r h
      refine ⟨hc, fun x hx => List.mem_cons_of_mem c (hmem x hx), mid, hmid, ?_⟩
      rw [he, List.reverse_cons, List.append_assoc]
      rfl

theorem tryR_decomp : ∀ (revWs post cap r : List Char),
    tryR revWs post = some (cap, r) →
    cap ≠ [] ∧ (∀ x ∈ cap, catB x = true) ∧
    ∃ pre mid, mid ≠ [] ∧ pre ++ (cap ++ (mid ++ r)) = revWs.reverse ++ post := by
  intro revWs
  induction revWs with
  | nil =>
    intro post cap r h
    unfold tryR at h
    obtain ⟨hc, hmem, mid, hmid, he⟩ := pickGR_decomp _ _ _ _ h
    refine ⟨hc, fun x hx => List.mem_takeWhile_imp (by simpa using hmem x hx), [], mid, hmid, ?_⟩
    rw [List.nil_append, he, List.reverse_reverse, List.takeWhile_append_dropWhile]
    rfl
  | cons w rw' ih =>
    intro post cap r h
    unfold tryR at h
    cases hp : pickGR (post.takeWhile catB).reverse (post.dropWhile catB) with
    | some x =>
      rw [hp] at h
      cases h
      obtain ⟨hc, hmem, mid, hmid, he⟩ := pickGR_decomp _ _ _ _ hp
      refine ⟨hc, fun y hy => List.mem_takeWhile_imp (by simpa using hmem y hy),
        (w :: rw').reverse, mid, hmid, ?_⟩
      rw [he, List.reverse_reverse, List.takeWhile_append_dropWhile]
    | none =>
      rw [hp] at h
      obtain ⟨hc, hmem, pre, mid, hmid, he⟩ := ih (w :: post) cap r h
      refine ⟨hc, hmem, pre, mid, hmid, ?_⟩
      rw [he, List.reverse_cons, List.append_assoc]
      rfl

theorem afterCaret_decomp (l cap r : List Char) (h : afterCaret l = some (cap, r)) :
    cap ≠ [] ∧ (∀ x ∈ cap, catB x = true) ∧
    ∃ pre mid, mid ≠ [] ∧ pre ++ (cap ++ (mid ++ r)) = l := by
  unfold afterCaret at h
  split at h
  · next r2 heq =>
    obtain ⟨hc, hmem, pre, mid, hmid, he⟩ := tryR_decomp _ _ _ _ h
    rw [List.reverse_reverse, List.takeWhile_append_dropWhile] at he
    refine ⟨hc, hmem, l.takeWhile pyWs ++ '\x7b' :: pre, mid, hmid, ?_⟩
    conv_rhs => rw [← List.takeWhile_append_dropWhile pyWs l, heq]
    rw [← he]
    simp [List.append_assoc]
  · obtain ⟨hc, hmem, pre, mid, hmid, he⟩ := tryR_decomp _ _ _ _ h
    rw [List.reverse_reverse, List.takeWhile_append_dropWhile] at he
    exact ⟨hc, hmem, pre, mid, hmid, he⟩

theorem afterParen_decomp (l cap r : List Char) (h : afterParen l = some (cap, r)) :
    cap ≠ [] ∧ (∀ x ∈ cap, catB x = true) ∧
    ∃ pre mid, pre ≠ [] ∧ mid ≠ [] ∧ pre ++ (cap ++ (mid ++ r)) = l := by
  unfold afterParen at h
  split at h
  · next r3 heq =>
    obtain ⟨hc, hmem, pre, mid, hmid, he⟩ := afterCaret_decomp _ _ _ h
    refine ⟨hc, hmem, l.takeWhile pyWs ++ '^' :: pre, mid, by simp, hmid, ?_⟩
    conv_rhs => rw [← List.takeWhile_append_dropWhile pyWs l, heq]
    rw [← he]
    simp [List.append_assoc]
  · cases h

theorem tryMatchAt_decomp (l cap r : List Char) (h : tryMatchAt l = some (cap, r)) :
    cap ≠ [] ∧ (∀ x ∈ cap, catB x = true) ∧
    ∃ pre mid, pre ≠ [] ∧ mid ≠ [] ∧ pre ++ (cap ++ (mid ++ r)) = l := by
  unfold tryMatchAt at h
  split at h
  · next t =>
    obtain ⟨hc, hmem, pre, mid, hpre, hmid, he⟩ := afterParen_decomp _ _ _ h
    exact ⟨hc, hmem, '\\' :: '(' :: pre, mid, by simp, hmid, by rw [← he]; rfl⟩
  · next t =>
    obtain ⟨hc, hmem, pre, mid, hpre, hmid, he⟩ := afterParen_decomp _ _ _ h
    exact ⟨hc, hmem, '(' :: pre, mid, by simp, hmid, by rw [← he]; rfl⟩
  · cases h

theorem tryMatchAt_length (l cap r : List Char) (h : tryMatchAt l = some (cap, r)) :
    r.length < l.length := by
  obtain ⟨hc, hmem, pre, mid, hpre, hmid, he⟩ := tryMatchAt_decomp _ _ _ h
  have := congrArg List.length he
  simp only [List.length_append] at this
  have hp : 0 < pre.length := List.length_pos.mpr hpre
  omega

theorem fixAuxF_fuel : ∀ (fuel₁ fuel₂ : Nat) (l : List Char),
    l.length ≤ fuel₁ → l.length ≤ fuel₂ → fixAuxF fuel₁ l = fixAuxF fuel₂ l := by
  intro fuel₁
  induction fuel₁ with
  | zero =>
    intro fuel₂ l h1 h2
    have : l = [] := List.length_eq_zero.mp (Nat.le_zero.mp h1)
    subst this
    cases fuel₂ <;> rfl
  | succ f ih =>
    intro fuel₂ l h1 h2
    cases l with
    | nil => cases fuel₂ <;> rfl
    | cons c rest =>
      cases fuel₂ with
      | zero => simp at h2
      | succ g =>
        simp only [List.length_cons] at h1 h2
        cases hm : tryMatchAt (c :: rest) with
        | some p =>
          obtain ⟨cap, r⟩ := p
          have hr : r.length < rest.length + 1 := by
            simpa using tryMatchAt_length _ _ _ hm
          have he : fixAuxF f r = fixAuxF g r := ih g r (by omega) (by omega)
          simp only [fixAuxF, hm, he]
        | none =>
          have he : fixAuxF f rest = fixAuxF g rest := ih g rest (by omega) (by omega)
          simp only [fixAuxF, hm, he]

end Ocr2md

namespace Ocr2md

theorem blocker_lbracket : Blocker '[' := by
  refine ⟨rfl, rfl, ?_, ?_, ?_, ?_, ?_⟩ <;> decide

theorem blocker_lparen : Blocker '(' := by
  refine ⟨rfl, rfl, ?_, ?_, ?_, ?_, ?_⟩ <;> decide

theorem blockedL_ne_nil {y : List Char} (h : BlockedL y) : y ≠ [] := by
  rcases h with ⟨c, t, rfl, _⟩ | ⟨t, rfl⟩ <;> simp

theorem blockedL_head_ws {y : List Char} (h : BlockedL y) (c : Char) (t : List Char)
    (he : y = c :: t) : pyWs c = false := by
  rcases h with ⟨c', t', he', hb⟩ | ⟨t', he'⟩
  · rw [he'] at he
    injection he with h1 h2
    rw [← h1]
    exact hb.1
  · rw [he'] at he
    injection he with h1 h2
    rw [← h1]
    rfl

theorem blockedL_head_cat {y : List Char} (h : BlockedL y) (c : Char) (t : List Char)
    (he : y = c :: t) : catB c = false := by
  rcases h with ⟨c', t', he', hb⟩ | ⟨t', he'⟩
  · rw [he'] at he
    injection he with h1 h2
    rw [← h1]
    exact hb.2.1
  · rw [he'] at he
    injection he with h1 h2
    rw [← h1]
    rfl

theorem blockedL_head?_ws {y : List Char} (h : BlockedL y) :
    ∀ c, y.head? = some c → pyWs c = false := by
  intro c hc
  cases y with
  | nil => cases hc
  | cons a t =>
    have : a = c := by simpa using hc
    exact this ▸ blockedL_head_ws h a t rfl

theorem blockedL_head?_cat {y : List Char} (h : BlockedL y) :
    ∀ c, y.head? = some c → catB c = false := by
  intro c hc
  cases y with
  | nil => cases hc
  | cons a t =>
    have : a = c := by simpa using hc
    exact this ▸ blockedL_head_cat h a t rfl

theorem takeWhile_append_not (p : Char → Bool) (u y : List Char)
    (h : ∀ c, y.head? = some c → p c = false) :
    (u ++ y).takeWhile p = u.takeWhile p := by
  rw [List.takeWhile_append]
  split
  · next hlen =>
    have hu : u.takeWhile p = u := (List.takeWhile_sublist p).eq_of_length hlen
    have hy : y.takeWhile p = [] := by
      cases y with
      | nil => rfl
      | cons a t => simp [List.takeWhile_cons, h a rfl]
    rw [hy, hu]
    simp
  · rfl

theorem dropWhile_append_not (p : Char → Bool) (u y : List Char)
    (h : ∀ c, y.head? = some c → p c = false) :
    (u ++ y).dropWhile p = u.dropWhile p ++ y := by
  rw [List.dropWhile_append]
  split
  · next hemp =>
    have hu : u.dropWhile p = [] := by simpa [List.isEmpty_iff] using hemp
    have hy : y.dropWhile p = y := by
      cases y with
      | nil => rfl
      | cons a t => simp [List.dropWhile_cons, h a rfl]
    rw [hy, hu]
    rfl
  · rfl

theorem sTail_cons_ne (c : Char) (t : List Char) (h1 : c ≠ ')') (h2 : c ≠ '\\') :
    sTail (c :: t) = none := by
  unfold sTail
  split
  · next heq => injection heq with e1 e2; exact absurd e1 h1
  · next heq => injection heq with e1 e2; exact absurd e1 h2
  · rfl

theorem sTail_backslash_ne (t : List Char)
    (h : ∀ r, t ≠ ')' :: r) : sTail ('\\' :: t) = none := by
  unfold sTail
  split
  · next heq => injection heq with e1 e2; exact absurd e1 (by decide)
  · next heq =>
    injection heq with e1 e2
    exact absurd e2 (h _)
  · rfl

theorem blockedL_sTail {y : List Char} (h : BlockedL y) : sTail y = none := by
  rcases h with ⟨c, t, rfl, hb⟩ | ⟨t, rfl⟩
  · exact sTail_cons_ne c t hb.2.2.2.2.2.1 hb.2.2.2.2.2.2
  · exact sTail_backslash_ne _ (by intro r hr; injection hr with e1 e2; exact absurd e1 (by decide))

theorem blockedL_dropBrace {y : List Char} (h : BlockedL y) : dropBrace y = y := by
  have hne : ∀ r, y ≠ '\x7d' :: r := by
    intro r hr
    rcases h with ⟨c, t, he, hb⟩ | ⟨t, he⟩
    · rw [he] at hr; injection hr with e1 e2; exact absurd e1 hb.2.2.2.2.1
    · rw [he] at hr; injection hr with e1 e2; exact absurd e1 (by decide)
  rcases h with ⟨c, t, rfl, hb⟩ | ⟨t, rfl⟩
  · unfold dropBrace
    split
    · next r heq => exact absurd heq (hne _)
    · rfl
  · rfl

theorem sTail_sim (u y z : List Char) (hy : BlockedL y) (hz : BlockedL z) :
    SimO y z (sTail (u ++ y)) (sTail (u ++ z)) := by
  match u with
  | [] =>
    exact Or.inl ⟨blockedL_sTail hy, blockedL_sTail hz⟩
  | [')'] =>
    exact Or.inr ⟨[], rfl, rfl⟩
  | ')' :: c :: u' =>
    exact Or.inr ⟨c :: u', rfl, rfl⟩
  | ['\\'] =>
    refine Or.inl ⟨?_, ?_⟩
    · refine sTail_backslash_ne _ ?_
      intro r hr
      rcases hy with ⟨c, t, he, hb⟩ | ⟨t, he⟩
      · rw [he] at hr; injection hr with e1 e2; exact absurd e1 hb.2.2.2.2.2.1
      · rw [he] at hr; injection hr with e1 e2; exact absurd e1 (by decide)
    · refine sTail_backslash_ne _ ?_
      intro r hr
      rcases hz with ⟨c, t, he, hb⟩ | ⟨t, he⟩
      · rw [he] at hr; injection hr with e1 e2; exact absurd e1 hb.2.2.2.2.2.1
      · rw [he] at hr; injection hr with e1 e2; exact absurd e1 (by decide)
  | '\\' :: ')' :: u' =>
    exact Or.inr ⟨u', rfl, rfl⟩
  | '\\' :: c :: u' =>
    by_cases hc : c = ')'
    · subst hc
      exact Or.inr ⟨u', rfl, rfl⟩
    · refine Or.inl ⟨?_, ?_⟩
      · exact sTail_backslash_ne _ (by intro r hr; injection hr with e1 e2; exact absurd e1 hc)
      · exact sTail_backslash_ne _ (by intro r hr; injection hr with e1 e2; exact absurd e1 hc)
  | c :: u' =>
    by_cases h1 : c = ')'
    · subst h1; exact Or.inr ⟨u', rfl, rfl⟩
    · by_cases h2 : c = '\\'
      · subst h2
        cases u' with
        | nil =>
          refine Or.inl ⟨?_, ?_⟩
          · refine sTail_backslash_ne _ ?_
            intro r hr
            rcases hy with ⟨c', t, he, hb⟩ | ⟨t, he⟩
            · rw [he] at hr; injection hr with e1 e2; exact absurd e1 hb.2.2.2.2.2.1
            · rw [he] at hr; injection hr with e1 e2; exact absurd e1 (by decide)
          · refine sTail_backslash_ne _ ?_
            intro r hr
            rcases hz with ⟨c', t, he, hb⟩ | ⟨t, he⟩
            · rw [he] at hr; injection hr with e1 e2; exact absurd e1 hb.2.2.2.2.2.1
            · rw [he] at hr; injection hr with e1 e2; exact absurd e1 (by decide)
        | cons d u'' =>
          by_cases hd : d = ')'
          · subst hd; exact Or.inr ⟨u'', rfl, rfl⟩
          · refine Or.inl ⟨?_, ?_⟩
            · exact sTail_backslash_ne _ (by intro r hr; injection hr with e1 e2; exact absurd e1 hd)
            · exact sTail_backslash_ne _ (by intro r hr; injection hr with e1 e2; exact absurd e1 hd)
      · exact Or.inl ⟨sTail_cons_ne c _ h1 h2, sTail_cons_ne c _ h1 h2⟩

theorem dropBrace_sim (u y z : List Char) (hy : BlockedL y) (hz : BlockedL z) :
    ∃ u', dropBrace (u ++ y) = u' ++ y ∧ dropBrace (u ++ z) = u' ++ z := by
  cases u with
  | nil =>
    exact ⟨[], by simpa using blockedL_dropBrace hy, by simpa using blockedL_dropBrace hz⟩
  | cons c u' =>
    by_cases hc : c = '\x7d'
    · subst hc
      exact ⟨u', rfl, rfl⟩
    · refine ⟨c :: u', ?_, ?_⟩
      · unfold dropBrace
        split
        · next heq => injection heq with e1 e2; exact absurd e1 hc
        · rfl
      · unfold dropBrace
        split
        · next heq => injection heq with e1 e2; exact absurd e1 hc
        · rfl

theorem sMatch_sim (u y z : List Char) (hy : BlockedL y) (hz : BlockedL z) :
    SimO y z (sMatch (u ++ y)) (sMatch (u ++ z)) := by
  unfold sMatch
  rw [dropWhile_append_not pyWs u y (blockedL_head?_ws hy),
      dropWhile_append_not pyWs u z (blockedL_head?_ws hz)]
  obtain ⟨u2, hy2, hz2⟩ := dropBrace_sim (u.dropWhile pyWs) y z hy hz
  rw [hy2, hz2,
      dropWhile_append_not pyWs u2 y (blockedL_head?_ws hy),
      dropWhile_append_not pyWs u2 z (blockedL_head?_ws hz)]
  exact sTail_sim _ y z hy hz

end Ocr2md

namespace Ocr2md

theorem pickGR_cons_eq (c : Char) (rr rest : List Char) :
    pickGR (c :: rr) rest =
      match sMatch rest with
      | some r => some ((c :: rr).reverse, r)
      | none => pickGR rr (c :: rest) := rfl

theorem tryR_cons_eq (w : Char) (rw' post : List Char) :
    tryR (w :: rw') post =
      match pickGR (post.takeWhile catB).reverse (post.dropWhile catB) with
      | some x => some x
      | none => tryR rw' (w :: post) := rfl

theorem pickGR_sim (y z : List Char) (hy : BlockedL y) (hz : BlockedL z) :
    ∀ (revRun u : List Char),
    SimP y z (pickGR revRun (u ++ y)) (pickGR revRun (u ++ z)) := by
  intro revRun
  induction revRun with
  | nil => intro u; exact Or.inl ⟨rfl, rfl⟩
  | cons c rr ih =>
    intro u
    rcases sMatch_sim u y z hy hz with ⟨hn1, hn2⟩ | ⟨v, hv1, hv2⟩
    · rw [pickGR_cons_eq, pickGR_cons_eq, hn1, hn2]
      exact ih (c :: u)
    · rw [pickGR_cons_eq, pickGR_cons_eq, hv1, hv2]
      exact Or.inr ⟨(c :: rr).reverse, v, rfl, rfl⟩

theorem tryR_sim (y z : List Char) (hy : BlockedL y) (hz : BlockedL z) :
    ∀ (revWs u : List Char),
    SimP y z (tryR revWs (u ++ y)) (tryR revWs (u ++ z)) := by
  intro revWs
  induction revWs with
  | nil =>
    intro u
    show SimP y z
      (pickGR ((u ++ y).takeWhile catB).reverse ((u ++ y).dropWhile catB))
      (pickGR ((u ++ z).takeWhile catB).reverse ((u ++ z).dropWhile catB))
    rw [takeWhile_append_not catB u y (blockedL_head?_cat hy),
        takeWhile_append_not catB u z (blockedL_head?_cat hz),
        dropWhile_append_not catB u y (blockedL_head?_cat hy),
        dropWhile_append_not catB u z (blockedL_head?_cat hz)]
    exact pickGR_sim y z hy hz _ _
  | cons w rw' ih =>
    intro u
    rw [tryR_cons_eq, tryR_cons_eq,
        takeWhile_append_not catB u y (blockedL_head?_cat hy),
        takeWhile_append_not catB u z (blockedL_head?_cat hz),
        dropWhile_append_not catB u y (blockedL_head?_cat hy),
        dropWhile_append_not catB u z (blockedL_head?_cat hz)]
    rcases pickGR_sim y z hy hz (u.takeWhile catB).reverse (u.dropWhile catB) with
      ⟨hn1, hn2⟩ | ⟨cap, v, hv1, hv2⟩
    · rw [hn1, hn2]
      exact ih (w :: u)
    · rw [hv1, hv2]
      exact Or.inr ⟨cap, v, rfl, rfl⟩

theorem afterCaret_eq_brace (l r2 : List Char) (h : l.dropWhile pyWs = '\x7b' :: r2) :
    afterCaret l = tryR (r2.takeWhile pyWs).reverse (r2.dropWhile pyWs) := by
  unfold afterCaret
  rw [h]
  rfl

theorem afterCaret_eq_plain (l : List Char) (h : ∀ r2, l.dropWhile pyWs ≠ '\x7b' :: r2) :
    afterCaret l = tryR (l.takeWhile pyWs).reverse (l.dropWhile pyWs) := by
  unfold afterCaret
  split
  · next r2 heq => exact absurd heq (h _)
  · rfl

theorem blockedL_ne_brace {y : List Char} (hy : BlockedL y) :
    ∀ r, y ≠ '\x7b' :: r := by
  intro r hr
  rcases hy with ⟨c, t, he, hb⟩ | ⟨t, he⟩
  · rw [he] at hr; injection hr with e1 _; exact absurd e1 hb.2.2.2.1
  · rw [he] at hr; injection hr with e1 _; exact absurd e1 (by decide)

theorem blockedL_ne_caret {y : List Char} (hy : BlockedL y) :
    ∀ r, y ≠ '^' :: r := by
  intro r hr
  rcases hy with ⟨c, t, he, hb⟩ | ⟨t, he⟩
  · rw [he] at hr; injection hr with e1 _; exact absurd e1 hb.2.2.1
  · rw [he] at hr; injection hr with e1 _; exact absurd e1 (by decide)

theorem afterCaret_sim (y z : List Char) (hy : BlockedL y) (hz : BlockedL z)
    (u : List Char) :
    SimP y z (afterCaret (u ++ y)) (afterCaret (u ++ z)) := by
  have ey : (u ++ y).dropWhile pyWs = u.dropWhile pyWs ++ y :=
    dropWhile_append_not _ _ _ (blockedL_head?_ws hy)
  have ez : (u ++ z).dropWhile pyWs = u.dropWhile pyWs ++ z :=
    dropWhile_append_not _ _ _ (blockedL_head?_ws hz)
  have ety : (u ++ y).takeWhile pyWs = u.takeWhile pyWs :=
    takeWhile_append_not _ _ _ (blockedL_head?_ws hy)
  have etz : (u ++ z).takeWhile pyWs = u.takeWhile pyWs :=
    takeWhile_append_not _ _ _ (blockedL_head?_ws hz)
  cases hd : u.dropWhile pyWs with
  | nil =>
    have hy' : ∀ r2, (u ++ y).dropWhile pyWs ≠ '\x7b' :: r2 := by
      rw [ey, hd]
      simpa using blockedL_ne_brace hy
    have hz' : ∀ r2, (u ++ z).dropWhile pyWs ≠ '\x7b' :: r2 := by
      rw [ez, hd]
      simpa using blockedL_ne_brace hz
    rw [afterCaret_eq_plain _ hy', afterCaret_eq_plain _ hz', ety, etz, ey, ez, hd]
    simpa using tryR_sim y z hy hz (u.takeWhile pyWs).reverse []
  | cons c r2 =>
    by_cases hc : c = '\x7b'
    · subst hc
      have hby : (u ++ y).dropWhile pyWs = '\x7b' :: (r2 ++ y) := by
        rw [ey, hd]; rfl
      have hbz : (u ++ z).dropWhile pyWs = '\x7b' :: (r2 ++ z) := by
        rw [ez, hd]; rfl
      rw [afterCaret_eq_brace _ _ hby, afterCaret_eq_brace _ _ hbz,
          takeWhile_append_not pyWs r2 y (blockedL_head?_ws hy),
          takeWhile_append_not pyWs r2 z (blockedL_head?_ws hz),
          dropWhile_append_not pyWs r2 y (blockedL_head?_ws hy),
          dropWhile_append_not pyWs r2 z (blockedL_head?_ws hz)]
      exact tryR_sim y z hy hz _ _
    · have hy' : ∀ r', (u ++ y).dropWhile pyWs ≠ '\x7b' :: r' := by
        rw [ey, hd]
        intro r' hr
        rw [List.cons_append] at hr
        injection hr with e1 _
        exact absurd e1 hc
      have hz' : ∀ r', (u ++ z).dropWhile pyWs ≠ '\x7b' :: r' := by
        rw [ez, hd]
        intro r' hr
        rw [List.cons_append] at hr
        injection hr with e1 _
        exact absurd e1 hc
      rw [afterCaret_eq_plain _ hy', afterCaret_eq_plain _ hz', ety, etz, ey, ez]
      exact tryR_sim y z hy hz _ _

theorem afterParen_eq_caret (l r : List Char) (h : l.dropWhile pyWs = '^' :: r) :
    afterParen l = afterCaret r := by
  unfold afterParen
  rw [h]
  rfl

theorem afterParen_eq_none (l : List Char) (h : ∀ r, l.dropWhile pyWs ≠ '^' :: r) :
    afterParen l = none := by
  unfold afterParen
  split
  · next r heq => exact absurd heq (h _)
  · rfl

theorem afterParen_sim (y z : List Char) (hy : BlockedL y) (hz : BlockedL z)
    (u : List Char) :
    SimP y z (afterParen (u ++ y)) (afterParen (u ++ z)) := by
  have ey : (u ++ y).dropWhile pyWs = u.dropWhile pyWs ++ y :=
    dropWhile_append_not _ _ _ (blockedL_head?_ws hy)
  have ez : (u ++ z).dropWhile pyWs = u.dropWhile pyWs ++ z :=
    dropWhile_append_not _ _ _ (blockedL_head?_ws hz)
  cases hd : u.dropWhile pyWs with
  | nil =>
    have hy' : ∀ r, (u ++ y).dropWhile pyWs ≠ '^' :: r := by
      rw [ey, hd]
      simpa using blockedL_ne_caret hy
    have hz' : ∀ r, (u ++ z).dropWhile pyWs ≠ '^' :: r := by
      rw [ez, hd]
      simpa using blockedL_ne_caret hz
    exact Or.inl ⟨afterParen_eq_none _ hy', afterParen_eq_none _ hz'⟩
  | cons c r =>
    by_cases hc : c = '^'
    · subst hc
      have hby : (u ++ y).dropWhile pyWs = '^' :: (r ++ y) := by
        rw [ey, hd]; rfl
      have hbz : (u ++ z).dropWhile pyWs = '^' :: (r ++ z) := by
        rw [ez, hd]; rfl
      rw [afterParen_eq_caret _ _ hby, afterParen_eq_caret _ _ hbz]
      exact afterCaret_sim y z hy hz r
    · have hy' : ∀ r', (u ++ y).dropWhile pyWs ≠ '^' :: r' := by
        rw [ey, hd]
        intro r' hr
        rw [List.cons_append] at hr
        injection hr with e1 _
        exact absurd e1 hc
      have hz' : ∀ r', (u ++ z).dropWhile pyWs ≠ '^' :: r' := by
        rw [ez, hd]
        intro r' hr
        rw [List.cons_append] at hr
        injection hr with e1 _
        exact absurd e1 hc
      exact Or.inl ⟨afterParen_eq_none _ hy', afterParen_eq_none _ hz'⟩

end Ocr2md

namespace Ocr2md

theorem tryMatchAt_lparen (t : List Char) : tryMatchAt ('(' :: t) = afterParen t := rfl

theorem tryMatchAt_bsl_lparen (t : List Char) :
    tryMatchAt ('\\' :: '(' :: t) = afterParen t := rfl

theorem tryMatchAt_other (c : Char) (t : List Char) (h1 : c ≠ '(') (h2 : c ≠ '\\') :
    tryMatchAt (c :: t) = none := by
  unfold tryMatchAt
  split
  · next heq => injection heq with e1 _; exact absurd e1 h2
  · next heq => injection heq with e1 _; exact absurd e1 h1
  · rfl

theorem tryMatchAt_bsl_ne (c : Char) (t : List Char) (h : c ≠ '(') :
    tryMatchAt ('\\' :: c :: t) = none := by
  unfold tryMatchAt
  split
  · next heq =>
    injection heq with e1 e2
    injection e2 with e3 _
    exact absurd e3 h
  · next heq => injection heq with e1 _; exact absurd e1 (by decide)
  · rfl

theorem tryMatchAt_nil : tryMatchAt [] = none := rfl

theorem tryMatchAt_head (l cap r : List Char) (h : tryMatchAt l = some (cap, r)) :
    (∃ t, l = '(' :: t) ∨ (∃ t, l = '\\' :: '(' :: t) := by
  unfold tryMatchAt at h
  split at h
  · next t => exact Or.inr ⟨t, rfl⟩
  · next t => exact Or.inl ⟨t, rfl⟩
  · cases h

theorem catB_ne_lparen (c : Char) (h : catB c = true) : c ≠ '(' := by
  intro e
  subst e
  simp [catB, pyWs, lineBreakB, Char.isAlpha, Char.isDigit, Char.isUpper, Char.isLower] at h

theorem catB_ne_bsl (c : Char) (h : catB c = true) : c ≠ '\\' := by
  intro e
  subst e
  simp [catB, pyWs, lineBreakB, Char.isAlpha, Char.isDigit, Char.isUpper, Char.isLower] at h

theorem tryMatchAt_none_transfer (y z : List Char) (hy : BlockedL y) (hz : BlockedL z)
    (hzp : ∀ t, z ≠ '(' :: t) (u : List Char) (hu : u ≠ [])
    (h : tryMatchAt (u ++ y) = none) : tryMatchAt (u ++ z) = none := by
  cases u with
  | nil => exact absurd rfl hu
  | cons c₁ u₁ =>
    simp only [List.cons_append] at h ⊢
    cases u₁ with
    | nil =>
      simp only [List.nil_append] at h ⊢
      by_cases h1 : c₁ = '('
      · subst h1
        rw [tryMatchAt_lparen]
        refine afterParen_eq_none _ ?_
        have hdz : z.dropWhile pyWs = z := by
          cases z with
          | nil => rfl
          | cons a t => simp [List.dropWhile_cons, blockedL_head_ws hz a t rfl]
        rw [hdz]
        exact blockedL_ne_caret hz
      · by_cases h2 : c₁ = '\\'
        · subst h2
          rcases hz with ⟨c, t, rfl, hb⟩ | ⟨t, rfl⟩
          · exact tryMatchAt_bsl_ne c t (fun e => hzp t (by rw [e]))
          · exact tryMatchAt_bsl_ne '\\' _ (by decide)
        · exact tryMatchAt_other c₁ z h1 h2
    | cons c₂ u₂ =>
      by_cases h1 : c₁ = '('
      · subst h1
        rw [tryMatchAt_lparen] at h ⊢
        rcases afterParen_sim y z hy hz (c₂ :: u₂) with ⟨hn1, hn2⟩ | ⟨cap, v, hv1, hv2⟩
        · simpa using hn2
        · exact absurd (hv1.symm.trans h) (by simp)
      · by_cases h2 : c₁ = '\\'
        · subst h2
          by_cases h3 : c₂ = '('
          · subst h3
            simp only [List.cons_append] at h ⊢
            rw [tryMatchAt_bsl_lparen] at h ⊢
            rcases afterParen_sim y z hy hz u₂ with ⟨hn1, hn2⟩ | ⟨cap, v, hv1, hv2⟩
            · exact hn2
            · rw [hv1] at h
              cases h
          · exact tryMatchAt_bsl_ne c₂ _ h3
        · exact tryMatchAt_other c₁ _ h1 h2

theorem tryMatchAt_shape_blocked {y : List Char}
    (h : (∃ t, y = '(' :: t) ∨ (∃ t, y = '\\' :: '(' :: t)) : BlockedL y := by
  rcases h with ⟨t, rfl⟩ | ⟨t, rfl⟩
  · exact Or.inl ⟨'(', t, rfl, blocker_lparen⟩
  · exact Or.inr ⟨t, rfl⟩

theorem fixAuxF_decomp (fuel : Nat) : ∀ (l : List Char), l.length ≤ fuel →
    fixAuxF fuel l = l ∨
    ∃ x y w, l = x ++ y ∧ fixAuxF fuel l = x ++ ('[' :: w) ∧
      ((∃ t, y = '(' :: t) ∨ (∃ t, y = '\\' :: '(' :: t)) := by
  induction fuel with
  | zero =>
    intro l h
    left
    have : l = [] := List.length_eq_zero.mp (Nat.le_zero.mp h)
    subst this
    rfl
  | succ f ih =>
    intro l h
    cases l with
    | nil => left; rfl
    | cons c rest =>
      simp only [List.length_cons] at h
      cases hm : tryMatchAt (c :: rest) with
      | some p =>
        obtain ⟨cap, r⟩ := p
        right
        refine ⟨[], c :: rest, '^' :: (cap ++ ']' :: fixAuxF f r), rfl, ?_,
          tryMatchAt_head _ _ _ hm⟩
        simp only [fixAuxF, hm]
        rfl
      | none =>
        have h' : rest.length ≤ f := by omega
        rcases ih rest h' with heq | ⟨x, y, w, he1, he2, hy⟩
        · left
          simp only [fixAuxF, hm, heq]
        · right
          refine ⟨c :: x, y, w, by rw [he1]; rfl, ?_, hy⟩
          simp only [fixAuxF, hm, he2]
          rfl

theorem fixAuxF_eq_self (fuel : Nat) : ∀ (l : List Char), l.length ≤ fuel →
    (∀ v, v <:+ l → tryMatchAt v = none) → fixAuxF fuel l = l := by
  induction fuel with
  | zero =>
    intro l h hnm
    have : l = [] := List.length_eq_zero.mp (Nat.le_zero.mp h)
    subst this
    rfl
  | succ f ih =>
    intro l h hnm
    cases l with
    | nil => rfl
    | cons c rest =>
      simp only [List.length_cons] at h
      have hm : tryMatchAt (c :: rest) = none := hnm (c :: rest) List.suffix_rfl
      have hr : fixAuxF f rest = rest :=
        ih rest (by omega) (fun v hv => hnm v (hv.trans (List.suffix_cons c rest)))
      simp only [fixAuxF, hm, hr]

theorem suffix_append_decomp {v w S : List Char} (h : v <:+ w ++ S) :
    v <:+ S ∨ ∃ v', v' <:+ w ∧ v' ≠ [] ∧ v = v' ++ S := by
  induction w with
  | nil => exact Or.inl (by simpa using h)
  | cons a w' ih =>
    rw [List.cons_append, List.suffix_cons_iff] at h
    rcases h with rfl | h
    · exact Or.inr ⟨a :: w', List.suffix_rfl, by simp, by rw [List.cons_append]⟩
    · rcases ih h with hS | ⟨v', hv1, hv2, hv3⟩
      · exact Or.inl hS
      · exact Or.inr ⟨v', hv1.trans (List.suffix_cons a w'), hv2, hv3⟩

theorem fixAuxF_noMatch (fuel : Nat) : ∀ (l : List Char), l.length ≤ fuel →
    ∀ v, v <:+ fixAuxF fuel l → tryMatchAt v = none := by
  induction fuel with
  | zero =>
    intro l h v hv
    have : l = [] := List.length_eq_zero.mp (Nat.le_zero.mp h)
    subst this
    rw [show fixAuxF 0 ([] : List Char) = [] from rfl] at hv
    have : v = [] := List.suffix_nil.mp hv
    subst this
    rfl
  | succ f ih =>
    intro l h v hv
    cases l with
    | nil =>
      rw [show fixAuxF (f + 1) ([] : List Char) = [] from rfl] at hv
      have : v = [] := List.suffix_nil.mp hv
      subst this
      rfl
    | cons c rest =>
      simp only [List.length_cons] at h
      cases hm : tryMatchAt (c :: rest) with
      | some p =>
        obtain ⟨cap, r⟩ := p
        have hcap : ∀ x ∈ cap, catB x = true := (tryMatchAt_decomp _ _ _ hm).2.1
        have hrlen : r.length ≤ f := by
          have := tryMatchAt_length _ _ _ hm
          simp only [List.length_cons] at this
          omega
        rw [show fixAuxF (f + 1) (c :: rest) =
            ('[' :: '^' :: (cap ++ [']'])) ++ fixAuxF f r from by
          simp only [fixAuxF, hm]; simp] at hv
        rcases suffix_append_decomp hv with hS | ⟨v', hv1, hv2, rfl⟩
        · exact ih r hrlen v hS
        · cases v' with
          | nil => exact absurd rfl hv2
          | cons a t =>
            have ha : a ∈ '[' :: '^' :: (cap ++ [']']) :=
              hv1.sublist.subset (List.mem_cons_self a t)
            have ha1 : a ≠ '(' := by
              rcases List.mem_cons.mp ha with rfl | ha'
              · decide
              · rcases List.mem_cons.mp ha' with rfl | ha''
                · decide
                · rcases List.mem_append.mp ha'' with hac | hae
                  · exact catB_ne_lparen a (hcap a hac)
                  · have : a = ']' := by simpa using hae
                    subst this; decide
            have ha2 : a ≠ '\\' := by
              rcases List.mem_cons.mp ha with rfl | ha'
              · decide
              · rcases List.mem_cons.mp ha' with rfl | ha''
                · decide
                · rcases List.mem_append.mp ha'' with hac | hae
                  · exact catB_ne_bsl a (hcap a hac)
                  · have : a = ']' := by simpa using hae
                    subst this; decide
            rw [List.cons_append]
            exact tryMatchAt_other a _ ha1 ha2
      | none =>
        rw [show fixAuxF (f + 1) (c :: rest) = c :: fixAuxF f rest from by
          simp only [fixAuxF, hm]] at hv
        rcases List.suffix_cons_iff.mp hv with rfl | hv'
        · rcases fixAuxF_decomp f rest (by omega) with heq | ⟨x, y, w, he1, he2, hy⟩
          · rw [heq, hm]
          · rw [he2]
            have hby : BlockedL y := tryMatchAt_shape_blocked hy
            have hbz : BlockedL ('[' :: w) := Or.inl ⟨'[', w, rfl, blocker_lbracket⟩
            have hh : tryMatchAt ((c :: x) ++ y) = none := by
              rw [List.cons_append, ← he1]
              exact hm
            have := tryMatchAt_none_transfer y ('[' :: w) hby hbz
              (fun t ht => by injection ht with e1 _; exact absurd e1 (by decide))
              (c :: x) (by simp) hh
            rw [List.cons_append] at this
            exact this
        · exact ih rest (by omega) v hv'

theorem fixCitationsL_idem (l : List Char) :
    fixCitationsL (fixCitationsL l) = fixCitationsL l := by
  show fixAuxF (fixAuxF l.length l).length (fixAuxF l.length l) = fixAuxF l.length l
  exact fixAuxF_eq_self _ _ le_rfl (fixAuxF_noMatch l.length l le_rfl)

theorem fix_citations_idem (s : String) :
    fix_citations (fix_citations s) = fix_citations s :=
  congrArg String.mk (fixCitationsL_idem s.data)

end Ocr2md

namespace Ocr2md

theorem getLast?_cons_of_some {l : List Char} {a : Char} (c : Char)
    (h : l.getLast? = some a) : (c :: l).getLast? = some a := by
  have : c :: l = [c] ++ l := rfl
  rw [this, List.getLast?_append, h]
  rfl

theorem mem_of_getLast?_eq {l : List Char} {a : Char} (h : l.getLast? = some a) :
    a ∈ l := by
  induction l with
  | nil => cases h
  | cons c t ih =>
    cases t with
    | nil =>
      have : c = a := by simpa using h
      simp [this]
    | cons d t' =>
      have h' : (d :: t').getLast? = some a := by
        cases hd : (d :: t').getLast? with
        | none => exact absurd (List.getLast?_eq_none_iff.mp hd) (by simp)
        | some x =>
          have hx : (c :: d :: t').getLast? = some x := getLast?_cons_of_some c hd
          rw [hx] at h
          exact h
      exact List.mem_cons_of_mem c (ih h')

theorem adj2_cons {a b c : Char} {l : List Char} (h : Adj2 a b (c :: l)) :
    (c = a ∧ ∃ v, l = b :: v) ∨ Adj2 a b l := by
  obtain ⟨u, v, he⟩ := h
  cases u with
  | nil =>
    injection he with e1 e2
    exact Or.inl ⟨e1, v, e2⟩
  | cons c' u' =>
    injection he with e1 e2
    exact Or.inr ⟨u', v, e2⟩

theorem adj2_cons_intro {a b : Char} {l : List Char} (c : Char) (h : Adj2 a b l) :
    Adj2 a b (c :: l) := by
  obtain ⟨u, v, rfl⟩ := h
  exact ⟨c :: u, v, rfl⟩

theorem adj2_append_left {a b : Char} {l : List Char} (u : List Char) (h : Adj2 a b l) :
    Adj2 a b (u ++ l) := by
  induction u with
  | nil => simpa using h
  | cons c u' ih => exact adj2_cons_intro c ih

theorem adj2_append_right {a b : Char} {u : List Char} (h : Adj2 a b u) (v : List Char) :
    Adj2 a b (u ++ v) := by
  obtain ⟨x, y, rfl⟩ := h
  exact ⟨x, y ++ v, by simp⟩

theorem adj2_append {a b : Char} {u v : List Char} (h : Adj2 a b (u ++ v)) :
    Adj2 a b u ∨ Adj2 a b v ∨ (u.getLast? = some a ∧ v.head? = some b) := by
  induction u with
  | nil => exact Or.inr (Or.inl (by simpa using h))
  | cons d u' ih =>
    rw [List.cons_append] at h
    rcases adj2_cons h with ⟨rfl, w, hw⟩ | h'
    · cases u' with
      | nil =>
        refine Or.inr (Or.inr ⟨rfl, ?_⟩)
        simp only [List.nil_append] at hw
        rw [hw]
        rfl
      | cons e u'' =>
        rw [List.cons_append] at hw
        injection hw with e1 e2
        exact Or.inl ⟨[], u'', by rw [e1]; simp⟩
    · rcases ih h' with h1 | h2 | ⟨h3, h4⟩
      · exact Or.inl (adj2_cons_intro d h1)
      · exact Or.inr (Or.inl h2)
      · exact Or.inr (Or.inr ⟨getLast?_cons_of_some d h3, h4⟩)

theorem adj3_cons {a b c d : Char} {l : List Char} (h : Adj3 a b c (d :: l)) :
    (d = a ∧ ∃ v, l = b :: c :: v) ∨ Adj3 a b c l := by
  obtain ⟨u, v, he⟩ := h
  cases u with
  | nil =>
    injection he with e1 e2
    exact Or.inl ⟨e1, v, e2⟩
  | cons c' u' =>
    injection he with e1 e2
    exact Or.inr ⟨u', v, e2⟩

theorem adj3_cons_intro {a b c : Char} {l : List Char} (d : Char) (h : Adj3 a b c l) :
    Adj3 a b c (d :: l) := by
  obtain ⟨u, v, rfl⟩ := h
  exact ⟨d :: u, v, rfl⟩

theorem adj3_append_left {a b c : Char} {l : List Char} (u : List Char)
    (h : Adj3 a b c l) : Adj3 a b c (u ++ l) := by
  induction u with
  | nil => simpa using h
  | cons d u' ih => exact adj3_cons_intro d ih

theorem adj3_append_right {a b c : Char} {u : List Char} (h : Adj3 a b c u)
    (v : List Char) : Adj3 a b c (u ++ v) := by
  obtain ⟨x, y, rfl⟩ := h
  exact ⟨x, y ++ v, by simp⟩

theorem adj3_append {a b c : Char} {u v : List Char} (h : Adj3 a b c (u ++ v)) :
    Adj3 a b c u ∨ Adj3 a b c v ∨
    (u.getLast? = some a ∧ ∃ w, v = b :: c :: w) ∨
    ((∃ w, u = w ++ [a, b]) ∧ ∃ w', v = c :: w') := by
  induction u with
  | nil => exact Or.inr (Or.inl (by simpa using h))
  | cons d u' ih =>
    rw [List.cons_append] at h
    rcases adj3_cons h with ⟨rfl, w, hw⟩ | h'
    · cases u' with
      | nil =>
        simp only [List.nil_append] at hw
        exact Or.inr (Or.inr (Or.inl ⟨rfl, w, hw⟩))
      | cons e u'' =>
        rw [List.cons_append] at hw
        injection hw with e1 e2
        cases u'' with
        | nil =>
          simp only [List.nil_append] at e2
          exact Or.inr (Or.inr (Or.inr ⟨⟨[], by rw [e1]; simp⟩, w, e2⟩))
        | cons f u₃ =>
          rw [List.cons_append] at e2
          injection e2 with e3 e4
          exact Or.inl ⟨[], u₃, by rw [e1, e3]; simp⟩
    · rcases ih h' with h1 | h2 | ⟨h3, h4⟩ | ⟨⟨w, hw⟩, h4⟩
      · exact Or.inl (adj3_cons_intro d h1)
      · exact Or.inr (Or.inl h2)
      · exact Or.inr (Or.inr (Or.inl ⟨getLast?_cons_of_some d h3, h4⟩))
      · exact Or.inr (Or.inr (Or.inr ⟨⟨d :: w, by rw [hw]; rfl⟩, h4⟩))

theorem fixAuxF_take1 (fuel : Nat) (l t : List Char) (o₀ : Char)
    (h : fixAuxF fuel l = o₀ :: t) :
    o₀ = '[' ∨ ∃ t', l = o₀ :: t' := by
  cases fuel with
  | zero =>
    cases l with
    | nil => cases h
    | cons c rest =>
      injection h with e1 e2
      exact Or.inr ⟨rest, by rw [e1]⟩
  | succ f =>
    cases l with
    | nil => cases h
    | cons c rest =>
      cases hm : tryMatchAt (c :: rest) with
      | some p =>
        obtain ⟨cap, r⟩ := p
        rw [show fixAuxF (f + 1) (c :: rest) = '[' :: '^' :: (cap ++ ']' :: fixAuxF f r)
            from by simp only [fixAuxF, hm]] at h
        injection h with e1 _
        exact Or.inl e1.symm
      | none =>
        rw [show fixAuxF (f + 1) (c :: rest) = c :: fixAuxF f rest
            from by simp only [fixAuxF, hm]] at h
        injection h with e1 _
        exact Or.inr ⟨rest, by rw [e1]⟩

theorem fixAuxF_take2 (fuel : Nat) (l t : List Char) (o₀ o₁ : Char)
    (h : fixAuxF fuel l = o₀ :: o₁ :: t) :
    o₀ = '[' ∨ (∃ t', l = o₀ :: t') ∧ (o₁ = '[' ∨ ∃ t'', l = o₀ :: o₁ :: t'') := by
  cases fuel with
  | zero =>
    cases l with
    | nil => cases h
    | cons c rest =>
      injection h with e1 e2
      refine Or.inr ⟨⟨rest, by rw [e1]⟩, Or.inr ⟨t, by rw [e1, e2]⟩⟩
  | succ f =>
    cases l with
    | nil => cases h
    | cons c rest =>
      cases hm : tryMatchAt (c :: rest) with
      | some p =>
        obtain ⟨cap, r⟩ := p
        rw [show fixAuxF (f + 1) (c :: rest) = '[' :: '^' :: (cap ++ ']' :: fixAuxF f r)
            from by simp only [fixAuxF, hm]] at h
        injection h with e1 _
        exact Or.inl e1.symm
      | none =>
        rw [show fixAuxF (f + 1) (c :: rest) = c :: fixAuxF f rest
            from by simp only [fixAuxF, hm]] at h
        injection h with e1 e2
        rcases fixAuxF_take1 f rest t o₁ e2 with h1 | ⟨t', ht'⟩
        · exact Or.inr ⟨⟨rest, by rw [e1]⟩, Or.inl h1⟩
        · exact Or.inr ⟨⟨rest, by rw [e1]⟩, Or.inr ⟨t', by rw [e1, ht']⟩⟩

theorem fixAuxF_ne_nil (fuel : Nat) (l : List Char) (hne : l ≠ []) :
    fixAuxF fuel l ≠ [] := by
  cases fuel with
  | zero =>
    cases l with
    | nil => exact absurd rfl hne
    | cons c rest => simp [fixAuxF]
  | succ f =>
    cases l with
    | nil => exact absurd rfl hne
    | cons c rest =>
      cases hm : tryMatchAt (c :: rest) with
      | some p =>
        obtain ⟨cap, r⟩ := p
        simp [fixAuxF, hm]
      | none => simp [fixAuxF, hm]

theorem fixAuxF_head (fuel : Nat) (l : List Char) :
    (fixAuxF fuel l).head? = l.head? ∨ (fixAuxF fuel l).head? = some '[' := by
  cases fuel with
  | zero => exact Or.inl (by cases l <;> rfl)
  | succ f =>
    cases l with
    | nil => exact Or.inl rfl
    | cons c rest =>
      cases hm : tryMatchAt (c :: rest) with
      | some p =>
        obtain ⟨cap, r⟩ := p
        rw [show fixAuxF (f + 1) (c :: rest) = '[' :: '^' :: (cap ++ ']' :: fixAuxF f r)
            from by simp only [fixAuxF, hm]]
        exact Or.inr rfl
      | none =>
        rw [show fixAuxF (f + 1) (c :: rest) = c :: fixAuxF f rest
            from by simp only [fixAuxF, hm]]
        exact Or.inl rfl

theorem fixAuxF_mem (fuel : Nat) : ∀ (l : List Char), l.length ≤ fuel →
    ∀ c, c ∈ fixAuxF fuel l → c ∈ l ∨ c = '[' ∨ c = ']' ∨ c = '^' := by
  induction fuel with
  | zero =>
    intro l h c hc
    have : l = [] := List.length_eq_zero.mp (Nat.le_zero.mp h)
    subst this
    cases hc
  | succ f ih =>
    intro l h c hc
    cases l with
    | nil => cases hc
    | cons d rest =>
      simp only [List.length_cons] at h
      cases hm : tryMatchAt (d :: rest) with
      | some p =>
        obtain ⟨cap, r⟩ := p
        obtain ⟨hcne, hcmem, pre, mid, hpre, hmid, he⟩ := tryMatchAt_decomp _ _ _ hm
        have hrlen : r.length ≤ f := by
          have := tryMatchAt_length _ _ _ hm
          simp only [List.length_cons] at this
          omega
        rw [show fixAuxF (f + 1) (d :: rest) = '[' :: '^' :: (cap ++ ']' :: fixAuxF f r)
            from by simp only [fixAuxF, hm]] at hc
        rcases List.mem_cons.mp hc with rfl | hc1
        · exact Or.inr (Or.inl rfl)
        rcases List.mem_cons.mp hc1 with rfl | hc2
        · exact Or.inr (Or.inr (Or.inr rfl))
        rcases List.mem_append.mp hc2 with hc3 | hc4
        · left
          rw [← he]
          exact List.mem_append.mpr (Or.inr (List.mem_append.mpr (Or.inl hc3)))
        rcases List.mem_cons.mp hc4 with rfl | hc5
        · exact Or.inr (Or.inr (Or.inl rfl))
        rcases ih r hrlen c hc5 with hr | hsym
        · left
          rw [← he]
          refine List.mem_append.mpr (Or.inr (List.mem_append.mpr (Or.inr ?_)))
          exact List.mem_append.mpr (Or.inr hr)
        · exact Or.inr hsym
      | none =>
        rw [show fixAuxF (f + 1) (d :: rest) = d :: fixAuxF f rest
            from by simp only [fixAuxF, hm]] at hc
        rcases List.mem_cons.mp hc with rfl | hc1
        · exact Or.inl (List.mem_cons_self _ _)
        rcases ih rest (by omega) c hc1 with hr | hsym
        · exact Or.inl (List.mem_cons_of_mem d hr)
        · exact Or.inr hsym

end Ocr2md

namespace Ocr2md

theorem fixAuxF_last (fuel : Nat) : ∀ (l : List Char), l.length ≤ fuel →
    (fixAuxF fuel l).getLast? = l.getLast? ∨ (fixAuxF fuel l).getLast? = some ']' := by
  induction fuel with
  | zero =>
    intro l h
    have : l = [] := List.length_eq_zero.mp (Nat.le_zero.mp h)
    subst this
    exact Or.inl rfl
  | succ f ih =>
    intro l h
    cases l with
    | nil => exact Or.inl rfl
    | cons c rest =>
      simp only [List.length_cons] at h
      cases hm : tryMatchAt (c :: rest) with
      | some p =>
        obtain ⟨cap, r⟩ := p
        obtain ⟨hcne, hcmem, pre, mid, hpre, hmid, he⟩ := tryMatchAt_decomp _ _ _ hm
        have hrlen : r.length ≤ f := by
          have := tryMatchAt_length _ _ _ hm
          simp only [List.length_cons] at this
          omega
        rw [show fixAuxF (f + 1) (c :: rest) =
            ('[' :: '^' :: cap) ++ (']' :: fixAuxF f r) from by
          simp only [fixAuxF, hm]; simp]
        cases hr : fixAuxF f r with
        | nil =>
          rw [List.getLast?_append]
          exact Or.inr rfl
        | cons o os =>
          have hrne : r ≠ [] := by
            intro e
            rw [e] at hr
            cases f <;> cases hr
          rw [List.getLast?_append]
          rcases ih r hrlen with h1 | h2
          · rw [hr] at h1
            obtain ⟨x, hx⟩ := Option.isSome_iff_exists.mp (List.getLast?_isSome.mpr hrne)
            have h3 : (']' :: o :: os).getLast? = some x :=
              getLast?_cons_of_some ']' (h1.trans hx)
            have hl : (c :: rest).getLast? = some x := by
              rw [← he, List.getLast?_append, List.getLast?_append, List.getLast?_append, hx]
              rfl
            rw [h3, hl]
            exact Or.inl rfl
          · rw [hr] at h2
            have h3 : (']' :: o :: os).getLast? = some ']' := getLast?_cons_of_some ']' h2
            rw [h3]
            exact Or.inr rfl
      | none =>
        rw [show fixAuxF (f + 1) (c :: rest) = c :: fixAuxF f rest
            from by simp only [fixAuxF, hm]]
        cases hrest : rest with
        | nil =>
          rw [show fixAuxF f [] = [] from by cases f <;> rfl]
          exact Or.inl rfl
        | cons d rest' =>
          rw [← hrest]
          have hrne : rest ≠ [] := by rw [hrest]; simp
          have hne : fixAuxF f rest ≠ [] := fixAuxF_ne_nil f _ hrne
          obtain ⟨x, hx⟩ := Option.isSome_iff_exists.mp (List.getLast?_isSome.mpr hne)
          rcases ih rest (by omega) with h1 | h2
          · rw [hx] at h1
            rw [getLast?_cons_of_some c hx, getLast?_cons_of_some c h1.symm]
            exact Or.inl rfl
          · rw [getLast?_cons_of_some c h2]
            exact Or.inr rfl

theorem fixAuxF_adj2 (fuel : Nat) : ∀ (l : List Char), l.length ≤ fuel →
    ∀ a b, Adj2 a b (fixAuxF fuel l) →
    Adj2 a b l ∨ b = '[' ∨ a = ']' ∨ (a = '[' ∧ b = '^') ∨
    (a = '^' ∧ catB b = true) ∨ (catB a = true ∧ b = ']') := by
  induction fuel with
  | zero =>
    intro l h a b hadj
    have : l = [] := List.length_eq_zero.mp (Nat.le_zero.mp h)
    subst this
    obtain ⟨u, v, he⟩ := hadj
    rw [show fixAuxF 0 ([] : List Char) = [] from rfl] at he
    have hcon := he.symm
    simp at hcon
  | succ f ih =>
    intro l h a b hadj
    cases l with
    | nil =>
      obtain ⟨u, v, he⟩ := hadj
      rw [show fixAuxF (f + 1) ([] : List Char) = [] from rfl] at he
      have hcon := he.symm
      simp at hcon
    | cons c rest =>
      simp only [List.length_cons] at h
      cases hm : tryMatchAt (c :: rest) with
      | some p =>
        obtain ⟨cap, r⟩ := p
        obtain ⟨hcne, hcmem, pre, mid, hpre, hmid, he⟩ := tryMatchAt_decomp _ _ _ hm
        have hrlen : r.length ≤ f := by
          have := tryMatchAt_length _ _ _ hm
          simp only [List.length_cons] at this
          omega
        rw [show fixAuxF (f + 1) (c :: rest) = '[' :: '^' :: (cap ++ ']' :: fixAuxF f r)
            from by simp only [fixAuxF, hm]] at hadj
        rcases adj2_cons hadj with ⟨rfl, v, hv⟩ | h1
        · injection hv with e1 _
          exact Or.inr (Or.inr (Or.inr (Or.inl ⟨rfl, e1.symm⟩)))
        · rcases adj2_cons h1 with ⟨rfl, v, hv⟩ | h2
          · cases hcap0 : cap with
            | nil => exact absurd hcap0 hcne
            | cons c₀ cap' =>
              rw [hcap0, List.cons_append] at hv
              injection hv with e1 _
              refine Or.inr (Or.inr (Or.inr (Or.inr (Or.inl ⟨rfl, ?_⟩))))
              rw [← e1]
              exact hcmem c₀ (by rw [hcap0]; exact List.mem_cons_self _ _)
          · rcases adj2_append h2 with h3 | h4 | ⟨h5, h6⟩
            · left
              rw [← he]
              exact adj2_append_left pre (adj2_append_right h3 _)
            · rcases adj2_cons h4 with ⟨rfl, v, hv⟩ | h7
              · exact Or.inr (Or.inr (Or.inl rfl))
              · rcases ih r hrlen a b h7 with h8 | h9
                · left
                  rw [← he]
                  exact adj2_append_left pre (adj2_append_left cap (adj2_append_left mid h8))
                · exact Or.inr h9
            · have hb : ']' = b := Option.some.inj h6
              have ha : catB a = true := hcmem a (mem_of_getLast?_eq h5)
              exact Or.inr (Or.inr (Or.inr (Or.inr (Or.inr ⟨ha, hb.symm⟩))))
      | none =>
        rw [show fixAuxF (f + 1) (c :: rest) = c :: fixAuxF f rest
            from by simp only [fixAuxF, hm]] at hadj
        rcases adj2_cons hadj with ⟨rfl, v, hv⟩ | h1
        · rcases fixAuxF_take1 f rest v b hv with rfl | ⟨t', ht'⟩
          · exact Or.inr (Or.inl rfl)
          · left
            exact ⟨[], t', by rw [ht']; simp⟩
        · rcases ih rest (by omega) a b h1 with h2 | h3
          · exact Or.inl (adj2_cons_intro c h2)
          · exact Or.inr h3

theorem fixAuxF_adj3 (fuel : Nat) : ∀ (l : List Char), l.length ≤ fuel →
    ∀ a b c, Adj3 a b c (fixAuxF fuel l) →
    Adj3 a b c l ∨ b = '[' ∨ b = ']' ∨ b = '^' ∨ a = '[' ∨ a = ']' ∨
    c = '[' ∨ c = ']' ∨ (a = '^' ∧ catB b = true) := by
  induction fuel with
  | zero =>
    intro l h a b c hadj
    have : l = [] := List.length_eq_zero.mp (Nat.le_zero.mp h)
    subst this
    obtain ⟨u, v, he⟩ := hadj
    rw [show fixAuxF 0 ([] : List Char) = [] from rfl] at he
    have hcon := he.symm
    simp at hcon
  | succ f ih =>
    intro l h a b c hadj
    cases l with
    | nil =>
      obtain ⟨u, v, he⟩ := hadj
      rw [show fixAuxF (f + 1) ([] : List Char) = [] from rfl] at he
      have hcon := he.symm
      simp at hcon
    | cons d rest =>
      simp only [List.length_cons] at h
      cases hm : tryMatchAt (d :: rest) with
      | some p =>
        obtain ⟨cap, r⟩ := p
        obtain ⟨hcne, hcmem, pre, mid, hpre, hmid, he⟩ := tryMatchAt_decomp _ _ _ hm
        have hrlen : r.length ≤ f := by
          have := tryMatchAt_length _ _ _ hm
          simp only [List.length_cons] at this
          omega
        rw [show fixAuxF (f + 1) (d :: rest) = '[' :: '^' :: (cap ++ ']' :: fixAuxF f r)
            from by simp only [fixAuxF, hm]] at hadj
        rcases adj3_cons hadj with ⟨rfl, v, hv⟩ | h1
        · exact Or.inr (Or.inr (Or.inr (Or.inr (Or.inl rfl))))
        · rcases adj3_cons h1 with ⟨rfl, v, hv⟩ | h2
          · cases hcap0 : cap with
            | nil => exact absurd hcap0 hcne
            | cons c₀ cap' =>
              rw [hcap0, List.cons_append] at hv
              injection hv with e1 _
              refine Or.inr (Or.inr (Or.inr (Or.inr (Or.inr (Or.inr (Or.inr (Or.inr ⟨rfl, ?_⟩)))))))
              rw [← e1]
              exact hcmem c₀ (by rw [hcap0]; exact List.mem_cons_self _ _)
          · rcases adj3_append h2 with h3 | h4 | ⟨h5, w, hw⟩ | ⟨⟨w, hw⟩, w', hw'⟩
            · left
              rw [← he]
              exact adj3_append_left pre (adj3_append_right h3 _)
            · rcases adj3_cons h4 with ⟨rfl, v, hv⟩ | h7
              · exact Or.inr (Or.inr (Or.inr (Or.inr (Or.inr (Or.inl rfl)))))
              · rcases ih r hrlen a b c h7 with h8 | h9
                · left
                  rw [← he]
                  exact adj3_append_left pre (adj3_append_left cap (adj3_append_left mid h8))
                · exact Or.inr h9
            · have hb := hw
              rw [List.cons.injEq] at hb
              exact Or.inr (Or.inr (Or.inl hb.1.symm))
            · have hc := hw'
              rw [List.cons.injEq] at hc
              exact Or.inr (Or.inr (Or.inr (Or.inr (Or.inr (Or.inr (Or.inr (Or.inl hc.1.symm)))))))
      | none =>
        rw [show fixAuxF (f + 1) (d :: rest) = d :: fixAuxF f rest
            from by simp only [fixAuxF, hm]] at hadj
        rcases adj3_cons hadj with ⟨rfl, v, hv⟩ | h1
        · rcases fixAuxF_take2 f rest v b c hv with rfl | ⟨⟨t', ht'⟩, hsub⟩
          · exact Or.inr (Or.inl rfl)
          · rcases hsub with rfl | ⟨t'', ht''⟩
            · exact Or.inr (Or.inr (Or.inr (Or.inr (Or.inr (Or.inr (Or.inl rfl))))))
            · left
              exact ⟨[], t'', by rw [ht'']; simp⟩
        · rcases ih rest (by omega) a b c h1 with h2 | h3
          · exact Or.inl (adj3_cons_intro d h2)
          · exact Or.inr h3

end Ocr2md

namespace Ocr2md

theorem splitAux_cons_ne (c : Char) (h : c ≠ '\r') (l acc : List Char) :
    splitAux (c :: l) acc =
      if lineBreakB c then acc.reverse :: splitAux l [] else splitAux l (c :: acc) := by
  conv_lhs => unfold splitAux
  split
  · next heq => cases heq
  · next r heq =>
    injection heq with e1 _
    exact absurd e1 h
  · next c' r heq =>
    injection heq with e1 e2
    rw [← e1, ← e2]

theorem splitAux_seg (seg : List Char) (hseg : ∀ c ∈ seg, lineBreakB c = false) :
    ∀ (rest acc : List Char),
    splitAux (seg ++ '\n' :: rest) acc = (acc.reverse ++ seg) :: splitAux rest [] := by
  induction seg with
  | nil =>
    intro rest acc
    rw [List.nil_append,
      splitAux_cons_ne '\n' (by decide) rest acc,
      if_pos (by decide)]
    simp
  | cons c seg' ih =>
    intro rest acc
    have hc : lineBreakB c = false := hseg c (List.mem_cons_self _ _)
    have hcr : c ≠ '\r' := by
      intro e
      rw [e] at hc
      cases hc
    rw [List.cons_append, splitAux_cons_ne c hcr _ acc, if_neg (by rw [hc]; simp),
      ih (fun d hd => hseg d (List.mem_cons_of_mem c hd)) rest (c :: acc)]
    simp

theorem splitAux_single (x : List Char) (hx : ∀ c ∈ x, lineBreakB c = false) :
    ∀ acc, acc.reverse ++ x ≠ [] → splitAux x acc = [acc.reverse ++ x] := by
  induction x with
  | nil =>
    intro acc hacc
    have : ¬ acc.isEmpty = true := by
      intro he
      rw [List.isEmpty_iff.mp he] at hacc
      exact hacc (by simp)
    unfold splitAux
    rw [if_neg this]
    simp
  | cons c x' ih =>
    intro acc hacc
    have hc : lineBreakB c = false := hx c (List.mem_cons_self _ _)
    have hcr : c ≠ '\r' := by
      intro e
      rw [e] at hc
      cases hc
    rw [splitAux_cons_ne c hcr x' acc, if_neg (by rw [hc]; simp),
      ih (fun d hd => hx d (List.mem_cons_of_mem c hd)) (c :: acc) (by simp)]
    simp

theorem rstripL_eq_self (l : List Char)
    (h : ∀ c, l.getLast? = some c → pyWs c = false) : rstripL l = l := by
  unfold rstripL
  cases hr : l.reverse with
  | nil =>
    rw [List.dropWhile_nil]
    rw [← hr, List.reverse_reverse]
  | cons c t =>
    have hc : l.getLast? = some c := by
      rw [← List.reverse_reverse l, hr]
      rw [List.getLast?_reverse]
      rfl
    rw [List.dropWhile_cons, if_neg (by rw [h c hc]; simp), ← hr, List.reverse_reverse]

theorem stripL_eq_self (l : List Char)
    (hh : ∀ c, l.head? = some c → pyWs c = false)
    (hl : ∀ c, l.getLast? = some c → pyWs c = false) : stripL l = l := by
  unfold stripL
  have hd : l.dropWhile pyWs = l := by
    cases l with
    | nil => rfl
    | cons c t => rw [List.dropWhile_cons, if_neg (by rw [hh c rfl]; simp)]
  rw [hd]
  exact rstripL_eq_self l hl

theorem joinNL_cons_of_ne {L : List (List Char)} (a : List Char) (h : L ≠ []) :
    joinNL (a :: L) = a ++ '\n' :: joinNL L := by
  cases L with
  | nil => exact absurd rfl h
  | cons b L' => rfl

theorem adj2_mem_right {a b : Char} {l : List Char} (h : Adj2 a b l) : b ∈ l := by
  obtain ⟨u, v, rfl⟩ := h
  simp

theorem adj2_mem_left {a b : Char} {l : List Char} (h : Adj2 a b l) : a ∈ l := by
  obtain ⟨u, v, rfl⟩ := h
  simp

theorem adj3_mem_left {a b c : Char} {l : List Char} (h : Adj3 a b c l) : a ∈ l := by
  obtain ⟨u, v, rfl⟩ := h
  simp

theorem rstripL_to_append (l : List Char) : ∃ w, l = rstripL l ++ w := by
  refine ⟨(l.reverse.takeWhile pyWs).reverse, ?_⟩
  unfold rstripL
  rw [← List.reverse_append, List.takeWhile_append_dropWhile, List.reverse_reverse]

theorem adj2_rstripL {a b : Char} {l : List Char} (h : Adj2 a b (rstripL l)) :
    Adj2 a b l := by
  obtain ⟨w, hw⟩ := rstripL_to_append l
  rw [hw]
  exact adj2_append_right h w

theorem adj2_stripL {a b : Char} {l : List Char} (h : Adj2 a b (stripL l)) :
    Adj2 a b l := by
  have h1 : Adj2 a b (l.dropWhile pyWs) := adj2_rstripL h
  conv_rhs => rw [← List.takeWhile_append_dropWhile pyWs l]
  exact adj2_append_left _ h1

theorem adj3_rstripL {a b c : Char} {l : List Char} (h : Adj3 a b c (rstripL l)) :
    Adj3 a b c l := by
  obtain ⟨w, hw⟩ := rstripL_to_append l
  rw [hw]
  exact adj3_append_right h w

theorem adj3_stripL {a b c : Char} {l : List Char} (h : Adj3 a b c (stripL l)) :
    Adj3 a b c l := by
  have h1 : Adj3 a b c (l.dropWhile pyWs) := adj3_rstripL h
  conv_rhs => rw [← List.takeWhile_append_dropWhile pyWs l]
  exact adj3_append_left _ h1

theorem mem_rstripL {c : Char} {l : List Char} (h : c ∈ rstripL l) : c ∈ l := by
  obtain ⟨w, hw⟩ := rstripL_to_append l
  rw [hw]
  exact List.mem_append.mpr (Or.inl h)

theorem mem_stripL {c : Char} {l : List Char} (h : c ∈ stripL l) : c ∈ l := by
  have h1 : c ∈ l.dropWhile pyWs := mem_rstripL h
  exact (List.dropWhile_sublist pyWs).subset h1

theorem processLines_mem {line : List Char} : ∀ {ls : List (List Char)},
    line ∈ processLines ls →
    line = [] ∨ ∃ l ∈ ls, line = rstripL l ∧ startsMarker line = false ∧ line ≠ [] := by
  intro ls
  induction ls with
  | nil => intro h; cases h
  | cons l ls' ih =>
    intro h
    by_cases he : (rstripL l).isEmpty
    · rw [show processLines (l :: ls') = [] :: processLines ls' from by
        simp [processLines, he]] at h
      rcases List.mem_cons.mp h with rfl | h2
      · exact Or.inl rfl
      · rcases ih h2 with h3 | ⟨m, hm1, hm2⟩
        · exact Or.inl h3
        · exact Or.inr ⟨m, List.mem_cons_of_mem l hm1, hm2⟩
    · by_cases hs : startsMarker (rstripL l) = true
      · rw [show processLines (l :: ls') = processLines ls' from by
          simp [processLines, he, hs]] at h
        rcases ih h with h3 | ⟨m, hm1, hm2⟩
        · exact Or.inl h3
        · exact Or.inr ⟨m, List.mem_cons_of_mem l hm1, hm2⟩
      · rw [show processLines (l :: ls') = rstripL l :: processLines ls' from by
          simp [processLines, he, hs]] at h
        rcases List.mem_cons.mp h with rfl | h2
        · refine Or.inr ⟨l, List.mem_cons_self _ _, rfl, by simpa using hs, ?_⟩
          intro hcon
          rw [hcon] at he
          exact he rfl
        · rcases ih h2 with h3 | ⟨m, hm1, hm2⟩
          · exact Or.inl h3
          · exact Or.inr ⟨m, List.mem_cons_of_mem l hm1, hm2⟩

theorem joinNL_chars {c : Char} : ∀ {L : List (List Char)},
    c ∈ joinNL L → c = '\n' ∨ ∃ l ∈ L, c ∈ l := by
  intro L
  induction L with
  | nil => intro h; cases h
  | cons l L' ih =>
    intro h
    cases L' with
    | nil => exact Or.inr ⟨l, List.mem_cons_self _ _, by simpa using h⟩
    | cons m L'' =>
      rw [joinNL_cons_of_ne l (by simp)] at h
      rcases List.mem_append.mp h with h1 | h2
      · exact Or.inr ⟨l, List.mem_cons_self _ _, h1⟩
      · rcases List.mem_cons.mp h2 with rfl | h3
        · exact Or.inl rfl
        · rcases ih h3 with h4 | ⟨n, hn1, hn2⟩
          · exact Or.inl h4
          · exact Or.inr ⟨n, List.mem_cons_of_mem l hn1, hn2⟩

end Ocr2md

namespace Ocr2md

theorem splitAux_cr_ne (d : Char) (hd : d ≠ '\n') (r acc : List Char) :
    splitAux ('\r' :: d :: r) acc = acc.reverse :: splitAux (d :: r) [] := by
  conv_lhs => unfold splitAux
  split
  · next heq => cases heq
  · next r' heq =>
    injection heq with _ e2
    injection e2 with e3 _
    exact absurd e3 hd
  · next c' r' heq =>
    injection heq with e1 e2
    rw [← e1, ← e2, if_pos (by decide)]

theorem splitAux_nil (acc : List Char) :
    splitAux [] acc = if acc.isEmpty then [] else [acc.reverse] := rfl

theorem splitAux_no_break (n : Nat) : ∀ (l acc : List Char), l.length ≤ n →
    (∀ c ∈ acc, lineBreakB c = false) →
    ∀ line ∈ splitAux l acc, ∀ c ∈ line, lineBreakB c = false := by
  induction n with
  | zero =>
    intro l acc h hacc line hline c hc
    have : l = [] := List.length_eq_zero.mp (Nat.le_zero.mp h)
    subst this
    rw [splitAux_nil] at hline
    by_cases he : acc.isEmpty
    · rw [if_pos he] at hline
      cases hline
    · rw [if_neg he] at hline
      have : line = acc.reverse := by simpa using hline
      subst this
      exact hacc c (List.mem_reverse.mp hc)
  | succ n ih =>
    intro l acc h hacc line hline c hc
    cases l with
    | nil =>
      rw [splitAux_nil] at hline
      by_cases he : acc.isEmpty
      · rw [if_pos he] at hline
        cases hline
      · rw [if_neg he] at hline
        have : line = acc.reverse := by simpa using hline
        subst this
        exact hacc c (List.mem_reverse.mp hc)
    | cons c₀ r =>
      simp only [List.length_cons] at h
      by_cases hcr : c₀ = '\r'
      · subst hcr
        cases r with
        | nil =>
          rw [show splitAux ['\r'] acc = [acc.reverse] from rfl] at hline
          have : line = acc.reverse := by simpa using hline
          subst this
          exact hacc c (List.mem_reverse.mp hc)
        | cons d r' =>
          simp only [List.length_cons] at h
          by_cases hdn : d = '\n'
          · subst hdn
            rw [show splitAux ('\r' :: '\n' :: r') acc = acc.reverse :: splitAux r' []
                from rfl] at hline
            rcases List.mem_cons.mp hline with rfl | h2
            · exact hacc c (List.mem_reverse.mp hc)
            · exact ih r' [] (by omega) (by simp) line h2 c hc
          · rw [splitAux_cr_ne d hdn r' acc] at hline
            rcases List.mem_cons.mp hline with rfl | h2
            · exact hacc c (List.mem_reverse.mp hc)
            · exact ih (d :: r') [] (by simp; omega) (by simp) line h2 c hc
      · rw [splitAux_cons_ne c₀ hcr r acc] at hline
        by_cases hb : lineBreakB c₀
        · rw [if_pos hb] at hline
          rcases List.mem_cons.mp hline with rfl | h2
          · exact hacc c (List.mem_reverse.mp hc)
          · exact ih r [] (by omega) (by simp) line h2 c hc
        · rw [if_neg hb] at hline
          refine ih r (c₀ :: acc) (by omega) ?_ line hline c hc
          intro d hd
          rcases List.mem_cons.mp hd with rfl | hd2
          · exact Bool.eq_false_iff.mpr hb
          · exact hacc d hd2

theorem splitAux_ne_nil (n : Nat) : ∀ (l acc : List Char), l.length ≤ n →
    (l ≠ [] ∨ acc ≠ []) → splitAux l acc ≠ [] := by
  induction n with
  | zero =>
    intro l acc h hor
    have : l = [] := List.length_eq_zero.mp (Nat.le_zero.mp h)
    subst this
    rcases hor with h1 | h2
    · exact absurd rfl h1
    · rw [splitAux_nil, if_neg (by simpa [List.isEmpty_iff] using h2)]
      simp
  | succ n ih =>
    intro l acc h hor
    cases l with
    | nil =>
      rcases hor with h1 | h2
      · exact absurd rfl h1
      · rw [splitAux_nil, if_neg (by simpa [List.isEmpty_iff] using h2)]
        simp
    | cons c₀ r =>
      simp only [List.length_cons] at h
      by_cases hcr : c₀ = '\r'
      · subst hcr
        cases r with
        | nil =>
          rw [show splitAux ['\r'] acc = [acc.reverse] from rfl]
          simp
        | cons d r' =>
          by_cases hdn : d = '\n'
          · subst hdn
            rw [show splitAux ('\r' :: '\n' :: r') acc = acc.reverse :: splitAux r' []
                from rfl]
            simp
          · rw [splitAux_cr_ne d hdn r' acc]
            simp
      · rw [splitAux_cons_ne c₀ hcr r acc]
        by_cases hb : lineBreakB c₀
        · rw [if_pos hb]
          simp
        · rw [if_neg hb]
          exact ih r (c₀ :: acc) (by omega) (Or.inr (by simp))

theorem joinNL_ne_marker (L : List (List Char))
    (h : ∀ l ∈ L, startsMarker l = false) :
    ∀ v, joinNL L ≠ '<' :: '|' :: v := by
  intro v hv
  cases L with
  | nil => cases hv
  | cons l₀ L₀ =>
    cases L₀ with
    | nil =>
      rw [show joinNL [l₀] = l₀ from rfl] at hv
      have hcon := h l₀ (List.mem_cons_self _ _)
      rw [hv] at hcon
      cases hcon
    | cons m L₁ =>
      rw [joinNL_cons_of_ne l₀ (by simp)] at hv
      cases l₀ with
      | nil =>
        simp only [List.nil_append] at hv
        injection hv with e1 _
        exact absurd e1 (by decide)
      | cons c₀ l₀' =>
        rw [List.cons_append] at hv
        injection hv with e1 e2
        cases l₀' with
        | nil =>
          simp only [List.nil_append] at e2
          injection e2 with e3 _
          exact absurd e3 (by decide)
        | cons c₁ l₀'' =>
          rw [List.cons_append] at e2
          injection e2 with e3 _
          have hcon := h (c₀ :: c₁ :: l₀'') (List.mem_cons_self _ _)
          rw [e1, e3] at hcon
          cases hcon

theorem joinNL_adj2_nl (L : List (List Char))
    (h1 : ∀ l ∈ L, ∀ c ∈ l, c ≠ '\n')
    (h2 : ∀ l ∈ L, ∀ c, l.getLast? = some c → pyWs c = false) :
    ∀ a, Adj2 a '\n' (joinNL L) → pyWs a = true → a = '\n' := by
  induction L with
  | nil =>
    intro a ha _
    obtain ⟨u, v, he⟩ := ha
    rw [show joinNL [] = [] from rfl] at he
    have := he.symm
    simp at this
  | cons l L' ih =>
    intro a ha hws
    cases L' with
    | nil =>
      have h3 : Adj2 a '\n' l := by
        rw [show joinNL [l] = l from rfl] at ha
        exact ha
      exact absurd rfl (h1 l (List.mem_cons_self _ _) '\n' (adj2_mem_right h3))
    | cons m L'' =>
      rw [joinNL_cons_of_ne l (by simp)] at ha
      rcases adj2_append ha with hA | hB | ⟨hc1, hc2⟩
      · exact absurd rfl (h1 l (List.mem_cons_self _ _) '\n' (adj2_mem_right hA))
      · rcases adj2_cons hB with ⟨he, v, hv⟩ | hC
        · exact he.symm
        · exact ih (fun x hx => h1 x (List.mem_cons_of_mem l hx))
            (fun x hx => h2 x (List.mem_cons_of_mem l hx)) a hC hws
      · rw [h2 l (List.mem_cons_self _ _) a hc1] at hws
        cases hws

theorem joinNL_adj3_marker (L : List (List Char))
    (h1 : ∀ l ∈ L, ∀ c ∈ l, c ≠ '\n')
    (h3 : ∀ l ∈ L, startsMarker l = false) :
    ∀ b c, Adj3 '\n' b c (joinNL L) → ¬(b = '<' ∧ c = '|') := by
  induction L with
  | nil =>
    intro b c hadj _
    obtain ⟨u, v, he⟩ := hadj
    rw [show joinNL [] = [] from rfl] at he
    have := he.symm
    simp at this
  | cons l L' ih =>
    intro b c hadj hbc
    obtain ⟨hb, hc⟩ := hbc
    subst hb
    subst hc
    cases L' with
    | nil =>
      have h4 : Adj3 '\n' '<' '|' l := by
        rw [show joinNL [l] = l from rfl] at hadj
        exact hadj
      exact absurd rfl (h1 l (List.mem_cons_self _ _) '\n' (adj3_mem_left h4))
    | cons m L'' =>
      rw [joinNL_cons_of_ne l (by simp)] at hadj
      rcases adj3_append hadj with hA | hB | ⟨hA1, w, hw⟩ | ⟨⟨w, hw⟩, _, _⟩
      · exact absurd rfl (h1 l (List.mem_cons_self _ _) '\n' (adj3_mem_left hA))
      · rcases adj3_cons hB with ⟨_, v, hv⟩ | hC
        · exact joinNL_ne_marker (m :: L'')
            (fun x hx => h3 x (List.mem_cons_of_mem l hx)) v hv
        · exact ih (fun x hx => h1 x (List.mem_cons_of_mem l hx))
            (fun x hx => h3 x (List.mem_cons_of_mem l hx)) '<' '|' hC ⟨rfl, rfl⟩
      · injection hw with e1 _
        exact absurd e1 (by decide)
      · have hmem : '\n' ∈ l := by rw [hw]; simp
        exact absurd rfl (h1 l (List.mem_cons_self _ _) '\n' hmem)

end Ocr2md

namespace Ocr2md

theorem dropWhile_head_false {p : Char → Bool} {x : List Char} {c₀ : Char}
    {rest : List Char} (h : x.dropWhile p = c₀ :: rest) : p c₀ = false := by
  induction x with
  | nil => cases h
  | cons a t ih =>
    rw [List.dropWhile_cons] at h
    by_cases hp : p a
    · rw [if_pos hp] at h
      exact ih h
    · rw [if_neg hp] at h
      injection h with e1 _
      rw [← e1]
      exact Bool.eq_false_iff.mpr hp

theorem startsMarker_eq_true {l : List Char} (h : startsMarker l = true) :
    ∃ t, l = '<' :: '|' :: t := by
  unfold startsMarker at h
  split at h
  · next t => exact ⟨t, rfl⟩
  · cases h

theorem processLines_cons_keep (l : List Char) (ls : List (List Char))
    (hne : rstripL l ≠ []) (hm : startsMarker (rstripL l) = false) :
    processLines (l :: ls) = rstripL l :: processLines ls := by
  have he : (rstripL l).isEmpty = false := by
    cases hl : rstripL l with
    | nil => exact absurd hl hne
    | cons a t => rfl
  simp [processLines, he, hm]

theorem processLines_cons_blank (l : List Char) (ls : List (List Char))
    (hne : rstripL l = []) :
    processLines (l :: ls) = [] :: processLines ls := by
  simp [processLines, hne]

theorem lp_core (n : Nat) : ∀ (x : List Char), x.length ≤ n →
    (∀ c ∈ x, lineBreakB c = true → c = '\n') →
    (∀ a, Adj2 a '\n' x → pyWs a = true → a = '\n') →
    (∀ c, x.getLast? = some c → pyWs c = false) →
    (∀ b c, Adj3 '\n' b c x → ¬(b = '<' ∧ c = '|')) →
    startsMarker x = false →
    joinNL (processLines (splitLinesL x)) = x := by
  induction n with
  | zero =>
    intro x h _ _ _ _ _
    have : x = [] := List.length_eq_zero.mp (Nat.le_zero.mp h)
    subst this
    rfl
  | succ n ih =>
    intro x hlen h1 h2 h3 h4 h5
    by_cases hnl : '\n' ∈ x
    · -- there is a newline: split off the first line
      have hrest' : x.dropWhile (fun c => !(c == '\n')) ≠ [] := by
        intro he
        have := List.dropWhile_eq_nil_iff.mp he '\n' hnl
        simp at this
      obtain ⟨c₀, rest, hr0⟩ : ∃ c₀ rest,
          x.dropWhile (fun c => !(c == '\n')) = c₀ :: rest := by
        cases hd : x.dropWhile (fun c => !(c == '\n')) with
        | nil => exact absurd hd hrest'
        | cons a t => exact ⟨a, t, rfl⟩
      have hc0 : c₀ = '\n' := by
        have := dropWhile_head_false hr0
        simpa using this
      subst hc0
      have hx : x = x.takeWhile (fun c => !(c == '\n')) ++ '\n' :: rest := by
        conv_lhs => rw [← List.takeWhile_append_dropWhile (fun c => !(c == '\n')) x]
        rw [hr0]
      have hsegnl : ∀ c ∈ x.takeWhile (fun c => !(c == '\n')), c ≠ '\n' := by
        intro c hcm
        have := List.mem_takeWhile_imp hcm
        simpa using this
      have hsegmem : ∀ c ∈ x.takeWhile (fun c => !(c == '\n')), c ∈ x :=
        fun c hcm => (List.takeWhile_sublist _).subset hcm
      have hsegnb : ∀ c ∈ x.takeWhile (fun c => !(c == '\n')), lineBreakB c = false := by
        intro c hcm
        by_cases hb : lineBreakB c
        · exact absurd (h1 c (hsegmem c hcm) hb) (hsegnl c hcm)
        · exact Bool.eq_false_iff.mpr hb
      have hrestne : rest ≠ [] := by
        intro he
        rw [he] at hx
        have hgl : x.getLast? = some '\n' := by
          rw [hx]
          exact List.getLast?_concat _
        have := h3 '\n' hgl
        cases this
      have hlenr : rest.length ≤ n := by
        have := congrArg List.length hx
        simp only [List.length_append, List.length_cons] at this
        omega
      have hrmem : ∀ c ∈ rest, c ∈ x := by
        intro c hcm
        rw [hx]
        exact List.mem_append.mpr (Or.inr (List.mem_cons_of_mem _ hcm))
      have hxassoc : x = (x.takeWhile (fun c => !(c == '\n')) ++ ['\n']) ++ rest := by
        conv_lhs => rw [hx]
        simp
      have ihrest : joinNL (processLines (splitLinesL rest)) = rest := by
        refine ih rest hlenr (fun c hcm hb => h1 c (hrmem c hcm) hb) ?_ ?_ ?_ ?_
        · intro a ha hws
          refine h2 a ?_ hws
          rw [hxassoc]
          exact adj2_append_left _ ha
        · intro c hglc
          refine h3 c ?_
          rw [hxassoc, List.getLast?_append, hglc]
          rfl
        · intro b c ha
          refine h4 b c ?_
          rw [hxassoc]
          exact adj3_append_left _ ha
        · cases hsm : startsMarker rest with
          | false => rfl
          | true =>
            obtain ⟨t, ht⟩ := startsMarker_eq_true hsm
            exfalso
            refine h4 '<' '|' ?_ ⟨rfl, rfl⟩
            refine ⟨x.takeWhile (fun c => !(c == '\n')), t, ?_⟩
            conv_lhs => rw [hx]
            rw [ht]
      have hsplit : splitLinesL x = x.takeWhile (fun c => !(c == '\n')) :: splitLinesL rest := by
        unfold splitLinesL
        conv_lhs => rw [hx]
        rw [splitAux_seg _ hsegnb rest []]
        simp
      have hLne : processLines (splitLinesL rest) ≠ [] := by
        intro he
        rw [he] at ihrest
        exact hrestne (ihrest.symm.trans rfl)
      rw [hsplit]
      by_cases hseg : x.takeWhile (fun c => !(c == '\n')) = []
      · rw [hseg, processLines_cons_blank [] _ rfl,
          joinNL_cons_of_ne [] hLne, ihrest, hx, hseg]
      · have hgseg : ∀ c, (x.takeWhile (fun c => !(c == '\n'))).getLast? = some c →
            pyWs c = false := by
          intro c hglc
          obtain ⟨w, hw⟩ := List.getLast?_eq_some_iff.mp hglc
          by_cases hws : pyWs c
          · have hadj : Adj2 c '\n' x := by
              refine ⟨w, rest, ?_⟩
              rw [hx, hw]
              simp
            have := h2 c hadj hws
            exact absurd this (hsegnl c (by rw [hw]; simp))
          · exact Bool.eq_false_iff.mpr hws
        have hrseg : rstripL (x.takeWhile (fun c => !(c == '\n'))) =
            x.takeWhile (fun c => !(c == '\n')) := rstripL_eq_self _ hgseg
        have hmseg : startsMarker (x.takeWhile (fun c => !(c == '\n'))) = false := by
          cases hsm : startsMarker (x.takeWhile (fun c => !(c == '\n'))) with
          | false => rfl
          | true =>
            obtain ⟨t, ht⟩ := startsMarker_eq_true hsm
            exfalso
            have : startsMarker x = true := by
              rw [hx, ht]
              rfl
            rw [this] at h5
            cases h5
        rw [processLines_cons_keep _ _ (by rw [hrseg]; exact hseg) (by rw [hrseg]; exact hmseg),
          hrseg, joinNL_cons_of_ne _ hLne, ihrest, ← hx]
    · -- no newline: the whole text is one line
      have hnb : ∀ c ∈ x, lineBreakB c = false := by
        intro c hcx
        by_cases hb : lineBreakB c
        · exfalso
          have := h1 c hcx hb
          rw [this] at hcx
          exact hnl hcx
        · exact Bool.eq_false_iff.mpr hb
      cases hxs : x with
      | nil => rfl
      | cons c r =>
        rw [← hxs]
        have hxne : x ≠ [] := by rw [hxs]; simp
        have hsplit : splitLinesL x = [x] := by
          unfold splitLinesL
          exact splitAux_single x hnb [] (by simpa using hxne)
        have hr : rstripL x = x := rstripL_eq_self x h3
        rw [hsplit, processLines_cons_keep _ _ (by rw [hr]; exact hxne) (by rw [hr]; exact h5), hr]
        rfl

end Ocr2md

namespace Ocr2md

theorem rstripL_last {l : List Char} {c : Char}
    (h : (rstripL l).getLast? = some c) : pyWs c = false := by
  unfold rstripL at h
  rw [List.getLast?_reverse] at h
  cases hd : l.reverse.dropWhile pyWs with
  | nil => rw [hd] at h; cases h
  | cons c₀ t =>
    rw [hd] at h
    injection h with e
    rw [← e]
    exact dropWhile_head_false hd

theorem stripL_last {l : List Char} {c : Char}
    (h : (stripL l).getLast? = some c) : pyWs c = false := by
  unfold stripL at h
  exact rstripL_last h

theorem stripL_head {l : List Char} {c : Char}
    (h : (stripL l).head? = some c) : pyWs c = false := by
  unfold stripL at h
  obtain ⟨w, hw⟩ := rstripL_to_append (l.dropWhile pyWs)
  cases hr : rstripL (l.dropWhile pyWs) with
  | nil => rw [hr] at h; cases h
  | cons c₀ t =>
    rw [hr] at h
    injection h with e
    rw [hr] at hw
    rw [← e]
    exact dropWhile_head_false (p := pyWs) (by rw [hw]; rfl)

theorem lineFacts (s : List Char) :
    ∀ l ∈ processLines (splitLinesL s),
      (∀ c ∈ l, lineBreakB c = false) ∧
      (∀ c, l.getLast? = some c → pyWs c = false) ∧
      startsMarker l = false := by
  intro l hl
  rcases processLines_mem hl with rfl | ⟨m, hm, rfl, hsm, _⟩
  · exact ⟨fun c hc => absurd hc (List.not_mem_nil c),
      fun c hc => by simp at hc, rfl⟩
  · refine ⟨?_, fun c hc => rstripL_last hc, hsm⟩
    intro c hc
    exact splitAux_no_break s.length s [] le_rfl
      (fun c hc => absurd hc (List.not_mem_nil c)) m hm c (mem_rstripL hc)

theorem tClean (s : List Char) :
    (∀ c ∈ stripL (joinNL (processLines (splitLinesL s))),
        lineBreakB c = true → c = '\n') ∧
    (∀ a, Adj2 a '\n' (stripL (joinNL (processLines (splitLinesL s)))) →
        pyWs a = true → a = '\n') ∧
    (∀ c, (stripL (joinNL (processLines (splitLinesL s)))).getLast? = some c →
        pyWs c = false) ∧
    (∀ b c, Adj3 '\n' b c (stripL (joinNL (processLines (splitLinesL s)))) →
        ¬(b = '<' ∧ c = '|')) ∧
    (∀ c, (stripL (joinNL (processLines (splitLinesL s)))).head? = some c →
        pyWs c = false) := by
  have h1' : ∀ l ∈ processLines (splitLinesL s), ∀ c ∈ l, c ≠ '\n' := by
    intro l hl c hc he
    have hb := (lineFacts s l hl).1 c hc
    rw [he] at hb
    exact absurd hb (by decide)
  have h2' : ∀ l ∈ processLines (splitLinesL s),
      ∀ c, l.getLast? = some c → pyWs c = false :=
    fun l hl => (lineFacts s l hl).2.1
  have h3' : ∀ l ∈ processLines (splitLinesL s), startsMarker l = false :=
    fun l hl => (lineFacts s l hl).2.2
  refine ⟨?_, ?_, ?_, ?_, ?_⟩
  · intro c hc hb
    rcases joinNL_chars (mem_stripL hc) with h | ⟨l, hl, hcl⟩
    · exact h
    · have := (lineFacts s l hl).1 c hcl
      rw [hb] at this
      cases this
  · intro a hadj hws
    exact joinNL_adj2_nl _ h1' h2' a (adj2_stripL hadj) hws
  · intro c hc
    exact stripL_last hc
  · intro b c hadj
    exact joinNL_adj3_marker _ h1' h3' b c (adj3_stripL hadj)
  · intro c hc
    exact stripL_head hc

theorem normalizeL_fix (T : List Char)
    (hT1 : ∀ c ∈ T, lineBreakB c = true → c = '\n')
    (hT2 : ∀ a, Adj2 a '\n' T → pyWs a = true → a = '\n')
    (hT3 : ∀ c, T.getLast? = some c → pyWs c = false)
    (hT4 : ∀ b c, Adj3 '\n' b c T → ¬(b = '<' ∧ c = '|'))
    (hT5 : ∀ c, T.head? = some c → pyWs c = false)
    (h5 : startsMarker (fixCitationsL T) = false) :
    normalizeL (fixCitationsL T) = fixCitationsL T := by
  have hF1 : ∀ c ∈ fixCitationsL T, lineBreakB c = true → c = '\n' := by
    intro c hc hb
    rcases fixAuxF_mem T.length T le_rfl c hc with h | h | h | h
    · exact hT1 c h hb
    · rw [h] at hb; exact absurd hb (by decide)
    · rw [h] at hb; exact absurd hb (by decide)
    · rw [h] at hb; exact absurd hb (by decide)
  have hF2 : ∀ a, Adj2 a '\n' (fixCitationsL T) → pyWs a = true → a = '\n' := by
    intro a hadj hws
    rcases fixAuxF_adj2 T.length T le_rfl a '\n' hadj with
      h | h | h | ⟨h1, h2⟩ | ⟨h1, h2⟩ | ⟨h1, h2⟩
    · exact hT2 a h hws
    · exact absurd h (by decide)
    · rw [h] at hws; exact absurd hws (by decide)
    · exact absurd h2 (by decide)
    · rw [h1] at hws; exact absurd hws (by decide)
    · exact absurd h2 (by decide)
  have hF3 : ∀ c, (fixCitationsL T).getLast? = some c → pyWs c = false := by
    intro c hc
    have hc' : (fixAuxF T.length T).getLast? = some c := hc
    rcases fixAuxF_last T.length T le_rfl with h | h
    · rw [h] at hc'; exact hT3 c hc'
    · rw [h] at hc'
      injection hc' with e
      rw [← e]
      decide
  have hF4 : ∀ b c, Adj3 '\n' b c (fixCitationsL T) → ¬(b = '<' ∧ c = '|') := by
    intro b c hadj hbc
    obtain ⟨rfl, rfl⟩ := hbc
    rcases fixAuxF_adj3 T.length T le_rfl '\n' '<' '|' hadj with
      h | h | h | h | h | h | h | h | ⟨h1, _⟩
    · exact hT4 '<' '|' h ⟨rfl, rfl⟩
    · exact absurd h (by decide)
    · exact absurd h (by decide)
    · exact absurd h (by decide)
    · exact absurd h (by decide)
    · exact absurd h (by decide)
    · exact absurd h (by decide)
    · exact absurd h (by decide)
    · exact absurd h1 (by decide)
  have hF5 : ∀ c, (fixCitationsL T).head? = some c → pyWs c = false := by
    intro c hc
    have hc' : (fixAuxF T.length T).head? = some c := hc
    rcases fixAuxF_head T.length T with h | h
    · rw [h] at hc'; exact hT5 c hc'
    · rw [h] at hc'
      injection hc' with e
      rw [← e]
      decide
  have hlp : joinNL (processLines (splitLinesL (fixCitationsL T))) = fixCitationsL T :=
    lp_core (fixCitationsL T).length (fixCitationsL T) le_rfl hF1 hF2 hF3 hF4 h5
  have hstrip : stripL (fixCitationsL T) = fixCitationsL T :=
    stripL_eq_self _ hF5 hF3
  show fixCitationsL (stripL (joinNL (processLines (splitLinesL (fixCitationsL T)))))
      = fixCitationsL T
  rw [hlp, hstrip]
  exact fixCitationsL_idem T

theorem normalizeL_idem (s : List Char)
    (h5 : startsMarker (normalizeL s) = false) :
    normalizeL (normalizeL s) = normalizeL s := by
  obtain ⟨hT1, hT2, hT3, hT4, hT5⟩ := tClean s
  exact normalizeL_fix _ hT1 hT2 hT3 hT4 hT5 h5

/-- C1, counterexample: `normalize_text` is not idempotent on every input.
On `" <|x"` the whitespace-only prefix protects the control marker from the
line pass, the final `strip()` exposes it, and a second pass drops the whole
line: `normalize_text " <|x" = "<|x"` but `normalize_text "<|x" = ""`
(src/ocr2md.py lines 19–34). -/
theorem c1_counterexample :
    normalize_text " <|x" = "<|x" ∧
    normalize_text (normalize_text " <|x") = "" ∧
    ("<|x" : String) ≠ "" :=
  ⟨rfl, rfl, by decide⟩

/-- C1, amended: `normalize_text` (src/ocr2md.py lines 19–34) is idempotent
on every input whose normalized output does not begin with the control
marker `<|`; the hypothesis is exactly what rules out the one failure mode,
where the final `strip()` exposes a marker that a second line pass would
drop. -/
theorem c1_amended (s : String)
    (h : startsMarker (normalize_text s).data = false) :
    normalize_text (normalize_text s) = normalize_text s := by
  show (⟨normalizeL (normalizeL s.data)⟩ : String) = ⟨normalizeL s.data⟩
  exact congrArg String.mk (normalizeL_idem s.data h)

/-- C1 witness: the amended idempotence at the concrete input `"a (^1) "`,
whose normalized output `"a [^1]"` does not begin with `<|`. -/
theorem c1_witness :
    startsMarker (normalize_text "a (^1) ").data = false ∧
    normalize_text (normalize_text "a (^1) ") = normalize_text "a (^1) " :=
  ⟨by decide, c1_amended "a (^1) " (by decide)⟩

end Ocr2md
